import Mathlib

/-!
# Persistent segment tree (`src/main.cpp`)

A shallow embedding of the class `PersistentSegmentTree` and proofs about it.

Modelling conventions:

* A `std::shared_ptr<Segment>` is a value of the inductive type `Segment`: either the empty
  pointer `Segment.null` or `Segment.mk value left right`, the pointee with its three fields.
  Nodes are never mutated after the build has returned, so two pointers to the same node are
  modelled by two equal values.
* The C++ `int` is 32 bits wide. The values stored in the nodes and returned by the queries
  are integers of the range `[-2^31, 2^31)` (`isInt`), and every addition of two values is
  `add32`: the sum reduced modulo `2^32` into that range, the two's complement wrap-around of
  the compiled code. Indices and sizes are far below `2^31` and are added as integers.
  `/` on `int` truncates towards zero, which is `Int.tdiv`.
* Dereferencing an empty pointer and indexing a vector out of bounds are undefined behaviour.
  Functions whose recursion follows the pointers return `Option`, with `none` for undefined
  behaviour. The two `RecursiveBuild` overloads recurse on the index range, not on the pointers;
  they take a fuel argument (one unit per call) and return a `Run`, which tells undefined
  behaviour from an exhausted fuel.
* The object state is the pair of the fields `versions` and `size`.
* Sharing of subtrees between versions is equality of the subtrees; which nodes a call of
  `ChangeElement` allocates is recorded by `Segment.ChangeElementLog`, the same recursion with
  the range of every `std::make_shared` listed.
-/

set_option autoImplicit false

/-! ## Data model -/

/-- A `std::shared_ptr<Segment>`: empty, or pointing to a `Segment` with its `value` and its
`left` and `right` pointers. -/
inductive Segment where
  | null : Segment
  | mk (value : Int) (left right : Segment) : Segment
deriving DecidableEq, Repr

/-- Result of a fuelled run: a value, undefined behaviour, or fuel exhausted before the
recursion finished. -/
inductive Run (α : Type) where
  | ok (a : α) : Run α
  | undefined : Run α
  | outOfFuel : Run α
deriving DecidableEq, Repr

/-- Sequencing of fuelled runs: the first failure is the result. -/
def Run.bind {α β : Type} : Run α → (α → Run β) → Run β
  | .ok a, f => f a
  | .undefined, _ => .undefined
  | .outOfFuel, _ => .outOfFuel

instance : Monad Run where
  pure := Run.ok
  bind := Run.bind

/-- The integer is a value of the C++ `int`: it lies in `[-2^31, 2^31)`. -/
def isInt (x : Int) : Prop := -2147483648 ≤ x ∧ x < 2147483648

instance (x : Int) : Decidable (isInt x) := inferInstanceAs (Decidable (_ ∧ _))

/-- The value of the C++ `int` that is congruent to the integer modulo `2^32`. -/
def wrap (x : Int) : Int := (x + 2147483648) % 4294967296 - 2147483648

/-- The sum `a + b` of two C++ `int` values: the integer sum, wrapped around into the range of
`int`. -/
def add32 (a b : Int) : Int := wrap (a + b)

namespace Segment

/-- The expression `std::make_shared<Segment>(0, std::shared_ptr<Segment>(),
std::shared_ptr<Segment>())`. -/
def fresh : Segment := .mk 0 .null .null

/-- The expression `p->value`; undefined on the empty pointer. -/
def getValue : Segment → Option Int
  | .null => none
  | .mk value _ _ => some value

/-- The zero-initialising `RecursiveBuild(node, l, r)` (main.cpp, lines 60-74): the argument is
the segment `node` points to, the result is that segment after the call. -/
def RecursiveBuild : Nat → Segment → Int → Int → Run Segment
  | 0, _, _, _ => .outOfFuel
  | fuel + 1, node, l, r =>
    let m := l + (r - l).tdiv 2
    do
      let node ←
        if m - l > 0 then
          match node with
          | .null => Run.undefined
          | .mk value _ right => do
            let left ← RecursiveBuild fuel fresh l m
            pure (.mk value left right)
        else pure node
      if r - m > 0 then
        match node with
        | .null => Run.undefined
        | .mk value left _ => do
          let right ← RecursiveBuild fuel fresh m r
          pure (.mk value left right)
      else pure node

/-- The element `arr[l]` of a `std::vector<int>` indexed by an `int`; undefined out of bounds. -/
def index (arr : List Int) (l : Int) : Run Int :=
  if l < 0 then .undefined
  else
    match arr[l.toNat]? with
    | some a => .ok a
    | none => .undefined

/-- The array `RecursiveBuild(node, arr, l, r)` (main.cpp, lines 76-98) with a fuel argument:
the argument is the segment `node` points to, the result is that segment after the call. -/
def RecursiveBuildFuel : Nat → Segment → List Int → Int → Int → Run Segment
  | 0, _, _, _, _ => .outOfFuel
  | fuel + 1, node, arr, l, r =>
    if r - l = 1 then
      match node with
      | .null => .undefined
      | .mk _ left right => do
        let a ← index arr l
        pure (.mk a left right)
    else
      let m := l + (r - l).tdiv 2
      do
        let node ←
          if m - l > 0 then
            match node with
            | .null => Run.undefined
            | .mk value _ right => do
              let left ← RecursiveBuildFuel fuel fresh arr l m
              match left with
              | .null => Run.undefined
              | .mk leftValue _ _ => pure (.mk (add32 value leftValue) left right)
          else pure node
        if r - m > 0 then
          match node with
          | .null => Run.undefined
          | .mk value left _ => do
            let right ← RecursiveBuildFuel fuel fresh arr m r
            match right with
            | .null => Run.undefined
            | .mk rightValue _ _ => pure (.mk (add32 value rightValue) left right)
        else pure node

/-- The array `RecursiveBuild(node, arr, l, r)`: the fuelled build with one unit of fuel more
than the length of the range, which is more than the recursion uses: every larger fuel gives
the same result (`RecursiveBuildFuel_eq`), the fuel is never exhausted
(`RecursiveBuildArr_ne_outOfFuel`) and the function satisfies the recursion of the source
(`RecursiveBuildArr_unfold`). -/
def RecursiveBuildArr (node : Segment) (arr : List Int) (l r : Int) : Run Segment :=
  RecursiveBuildFuel ((r - l).toNat + 1) node arr l r

/-- The recursive `SegmentValue(node, l, r, seg_l, seg_r)` (main.cpp, lines 104-117). -/
def SegmentValue : Segment → Int → Int → Int → Int → Option Int
  | .null, l, r, seg_l, seg_r =>
    if l ≤ seg_l ∧ seg_r ≤ r then none
    else if seg_r ≤ l ∨ r ≤ seg_l then some 0
    else none
  | .mk value left right, l, r, seg_l, seg_r =>
    if l ≤ seg_l ∧ seg_r ≤ r then some value
    else if seg_r ≤ l ∨ r ≤ seg_l then some 0
    else
      let seg_m := seg_l + (seg_r - seg_l).tdiv 2
      do
        let a ← SegmentValue left l r seg_l seg_m
        let b ← SegmentValue right l r seg_m seg_r
        pure (add32 a b)

/-- The recursive `ChangeElement(node, i, seg_l, seg_r, value)` (main.cpp, lines 127-145). -/
def ChangeElement : Segment → Int → Int → Int → Int → Option Segment
  | .null, i, seg_l, seg_r, value =>
    if seg_l = i ∧ i = seg_r - 1 then some (.mk value .null .null)
    else none
  | .mk _ left right, i, seg_l, seg_r, value =>
    if seg_l = i ∧ i = seg_r - 1 then some (.mk value .null .null)
    else
      let seg_m := seg_l + (seg_r - seg_l).tdiv 2
      if i < seg_m then do
        let new_left ← ChangeElement left i seg_l seg_m value
        let a ← new_left.getValue
        let b ← right.getValue
        pure (.mk (add32 a b) new_left right)
      else do
        let new_right ← ChangeElement right i seg_m seg_r value
        let a ← left.getValue
        let b ← new_right.getValue
        pure (.mk (add32 a b) left new_right)

end Segment

/-- The object state of a `PersistentSegmentTree`: the vector `versions` of roots and the
constant `size`. -/
structure PersistentSegmentTree where
  versions : List Segment
  size : Nat
deriving DecidableEq, Repr

/-- Outcome of a call of the public `ChangeElement`: a normal return with the state after the
call and the returned value, `std::out_of_range` thrown with the state at the throw, or
undefined behaviour. -/
inductive Outcome where
  | returned (tree : PersistentSegmentTree) (ret : Int) : Outcome
  | outOfRange (tree : PersistentSegmentTree) : Outcome
  | undefined : Outcome
deriving DecidableEq, Repr

namespace PersistentSegmentTree

/-- The constructor `PersistentSegmentTree(size_t size)` (main.cpp, lines 45-50), fuelled. -/
def ofSize (fuel : Nat) (size : Nat) : Run PersistentSegmentTree := do
  let root ← Segment.RecursiveBuild fuel Segment.fresh 0 size
  pure { versions := [root], size := size }

/-- The constructor `PersistentSegmentTree(const std::vector<int>& arr)` (main.cpp,
lines 52-58). -/
def ofArr (arr : List Int) : Run PersistentSegmentTree := do
  let root ← Segment.RecursiveBuildArr Segment.fresh arr 0 arr.length
  pure { versions := [root], size := arr.length }

/-- The expression `versions[version]` with an `int` index; undefined out of bounds. -/
def root (t : PersistentSegmentTree) (version : Int) : Option Segment :=
  if version < 0 then none else t.versions[version.toNat]?

/-- The public `SegmentValue(version, l, r)` (main.cpp, lines 100-102); `none` is undefined
behaviour. The function has no `throw`. -/
def SegmentValue (t : PersistentSegmentTree) (version l r : Int) : Option Int := do
  let node ← t.root version
  node.SegmentValue l r 0 t.size

/-- The public `ChangeElement(version, i, value)` (main.cpp, lines 119-125): the new root is
computed and pushed first, the bounds of `i` are checked afterwards. -/
def ChangeElement (t : PersistentSegmentTree) (version i value : Int) : Outcome :=
  match t.root version with
  | none => .undefined
  | some node =>
    match node.ChangeElement i 0 t.size value with
    | none => .undefined
    | some newRoot =>
      let t' : PersistentSegmentTree := { t with versions := t.versions ++ [newRoot] }
      if i < 0 ∨ i ≥ t.size then .outOfRange t'
      else .returned t' (t'.versions.length - 1)

end PersistentSegmentTree

/-! ## Runs of the program and the logical arrays -/

/-- One call `ChangeElement(version, i, value)`. -/
structure Update where
  version : Int
  i : Int
  value : Int
deriving DecidableEq, Repr

namespace PersistentSegmentTree

/-- Perform the calls in order, each on the state the previous one left: the state after a
return, or the state at the throw when the caller catches `std::out_of_range`. The result is
the final state with the values of the calls that returned, `none` when a call has undefined
behaviour. -/
def changeAll : PersistentSegmentTree → List Update →
    Option (PersistentSegmentTree × List Int)
  | t, [] => some (t, [])
  | t, u :: us =>
    match t.ChangeElement u.version u.i u.value with
    | .returned t' ret =>
      match changeAll t' us with
      | some (t'', rets) => some (t'', ret :: rets)
      | none => none
    | .outOfRange t' => changeAll t' us
    | .undefined => none

/-- The state after constructing the tree from `arr` and performing the calls `us`, with the
values the calls returned. -/
def run (arr : List Int) (us : List Update) : Option (PersistentSegmentTree × List Int) :=
  match ofArr arr with
  | .ok t => t.changeAll us
  | _ => none

end PersistentSegmentTree

/-- The calls `us` are valid when `n` versions are published: each names a published version
and an index in `[0, size)`, and publishes one more version. -/
def validUpdates (size : Nat) : Nat → List Update → Bool
  | _, [] => true
  | n, u :: us =>
    decide (0 ≤ u.version) && decide (u.version < n) && decide (0 ≤ u.i) && decide (u.i < size)
      && validUpdates size (n + 1) us

/-- Element `j` of the logical array (0 outside the array). -/
def elemAt (arr : List Int) (j : Int) : Int :=
  if j < 0 then 0 else arr.getD j.toNat 0

/-- The sum of the logical array over the indices `j` with `l ≤ j < r`. -/
def rangeSum (arr : List Int) (l r : Int) : Int :=
  ∑ j ∈ Finset.Ico l r, elemAt arr j

/-- The logical arrays after one more call: the array of the source version with position `i`
replaced by the value is appended. -/
def logicalStep (ls : List (List Int)) (u : Update) : List (List Int) :=
  ls ++ [(ls.getD u.version.toNat []).set u.i.toNat u.value]

/-- The logical arrays of all versions: version 0 is `arr`, the version created by
`ChangeElement(u, i, x)` is the array of `u` with position `i` replaced by `x`. -/
def logicalArrays (arr : List Int) (us : List Update) : List (List Int) :=
  us.foldl logicalStep [arr]

/-- The inputs are values of the C++ `int`: the elements of the array (a `std::vector<int>`)
and the values passed to `ChangeElement` (an `int` parameter). -/
def intInputs (arr : List Int) (us : List Update) : Prop :=
  (∀ x ∈ arr, isInt x) ∧ ∀ u ∈ us, isInt u.value

instance (arr : List Int) (us : List Update) : Decidable (intInputs arr us) :=
  inferInstanceAs (Decidable (_ ∧ _))

/-! ## Representation invariant -/

/-- The segment `t` is the tree over the range `[l, r)` of the logical array `f`: a range of
length 1 is a node without children holding `f l`, a longer range is split at
`l + (r - l) / 2` and its node holds the sum of `f` over the range, wrapped around into the
range of `int`. -/
inductive Segment.Holds (f : Int → Int) : Segment → Int → Int → Prop
  | leaf (l r : Int) (h : r = l + 1) : Holds f (.mk (f l) .null .null) l r
  | inner (l r : Int) (left right : Segment) (h : 2 ≤ r - l)
      (hl : Holds f left l (l + (r - l).tdiv 2)) (hr : Holds f right (l + (r - l).tdiv 2) r) :
      Holds f (.mk (wrap (∑ j ∈ Finset.Ico l r, f j)) left right) l r

/-- The result of the recursive query for `[l, r)` on the tree of the logical array `f` over
the range `[a, b)`: a node of a range of length 1 that the query covers returns the element it
stores, every other result is a sum of the array over the part of `[l, r)` inside `[a, b)`,
wrapped around into the range of `int`. -/
def Segment.queryResult (f : Int → Int) (l r a b : Int) : Int :=
  if b = a + 1 ∧ l ≤ a ∧ b ≤ r then f a
  else wrap (∑ j ∈ Finset.Ico (max l a) (min r b), f j)

/-- The state `t` has the non-zero size `size` and its roots are, in order, the trees of the
logical arrays `ls`, each of length `size`. -/
def PersistentSegmentTree.Inv (size : Nat) (t : PersistentSegmentTree)
    (ls : List (List Int)) : Prop :=
  t.size = size ∧ 0 < size ∧ t.versions.length = ls.length ∧
    ∀ (k : Nat) (node : Segment) (arr : List Int), t.versions[k]? = some node →
      ls[k]? = some arr → arr.length = size ∧ node.Holds (elemAt arr) 0 size

/-! ## The test driver -/

/-- The six values that `TestSums(tree, version)` prints (main.cpp, lines 147-154), in
order. -/
def TestSums (tree : PersistentSegmentTree) (version : Int) : List (Option Int) :=
  [tree.SegmentValue version 0 1, tree.SegmentValue version 1 2, tree.SegmentValue version 0 2,
    tree.SegmentValue version 0 3, tree.SegmentValue version 2 4, tree.SegmentValue version 0 5]

/-! ## Shape, positions and allocation -/

/-- The half of the range `[a, b)` that the recursion passes to the left child (`false`) or to
the right child (`true`): the range is split at `a + (b - a) / 2`. -/
def halfRange (a b : Int) (d : Bool) : Int × Int :=
  if d then (a + (b - a).tdiv 2, b) else (a, a + (b - a).tdiv 2)

/-- The range of the node at the position `p` below a node of range `[a, b)`; a position is the
list of the turns taken from that node, `false` to the left and `true` to the right. -/
def rangeAt : Int → Int → List Bool → Int × Int
  | a, b, [] => (a, b)
  | a, b, d :: p => rangeAt (halfRange a b d).1 (halfRange a b d).2 p

namespace Segment

/-- The pointer is empty. -/
def isNull : Segment → Bool
  | .null => true
  | .mk _ _ _ => false

/-- The pointer `p->left` (`false`) or `p->right` (`true`); empty below an empty pointer. -/
def child : Segment → Bool → Segment
  | .null, _ => .null
  | .mk _ left _, false => left
  | .mk _ _ right, true => right

/-- The subtree at the position `p`. -/
def descend : Segment → List Bool → Segment
  | t, [] => t
  | t, d :: p => descend (t.child d) p

/-- The tree with every value replaced by 0: what is left is the shape. -/
def skeleton : Segment → Segment
  | .null => .null
  | .mk _ left right => .mk 0 (skeleton left) (skeleton right)

/-- The number of edges on the longest path from the node to a node without children. -/
def height : Segment → Nat
  | .null => 0
  | .mk _ left right =>
    if left.isNull && right.isNull then 0 else 1 + max (height left) (height right)

/-- The sum invariant of the tree below a node of range `[l, r)`, for the addition `add`: the
node exists; a node without children has a range of length 1 and holds the element of the
logical array at its index `l`; every other node has both children and holds `add` of their
values, and so below. -/
def sumInvariantWith (add : Int → Int → Int) (arr : List Int) : Segment → Int → Int → Bool
  | .null, _, _ => false
  | .mk value left right, l, r =>
    if left.isNull && right.isNull then decide (r = l + 1) && decide (value = elemAt arr l)
    else
      match left.getValue, right.getValue with
      | some a, some b =>
        decide (value = add a b) && sumInvariantWith add arr left l (l + (r - l).tdiv 2)
          && sumInvariantWith add arr right (l + (r - l).tdiv 2) r
      | _, _ => false

/-- The sum invariant with the sum of integers: `value == left.value + right.value` read in
the integers. -/
def sumInvariantInteger (arr : List Int) (t : Segment) (l r : Int) : Bool :=
  sumInvariantWith (fun a b => a + b) arr t l r

/-- The sum invariant with the addition of the C++ `int`: `value == left.value + right.value`
as the code computes it. -/
def sumInvariant (arr : List Int) (t : Segment) (l r : Int) : Bool :=
  sumInvariantWith add32 arr t l r

/-- The shape invariant of the tree below a node of range `[a, b)`: the node exists; when
`b - a = 1` it has no children; otherwise `b - a > 1`, the midpoint `m = a + (b - a) / 2`
satisfies `a < m < b` and the node has two children with the shape invariant for `[a, m)` and
`[m, b)`. -/
def wellShaped : Segment → Int → Int → Bool
  | .null, _, _ => false
  | .mk _ left right, a, b =>
    if b - a = 1 then left.isNull && right.isNull
    else
      decide (b - a > 1) && decide (a < a + (b - a).tdiv 2) && decide (a + (b - a).tdiv 2 < b)
        && wellShaped left a (a + (b - a).tdiv 2) && wellShaped right (a + (b - a).tdiv 2) b

/-- The recursive `SegmentValue` would be called on an empty pointer: the recursion of
main.cpp, lines 104-117, with the result replaced by whether a call receives a missing
child. -/
def reachesNull : Segment → Int → Int → Int → Int → Bool
  | .null, _, _, _, _ => true
  | .mk _ left right, l, r, seg_l, seg_r =>
    if l ≤ seg_l ∧ seg_r ≤ r then false
    else if seg_r ≤ l ∨ r ≤ seg_l then false
    else
      reachesNull left l r seg_l (seg_l + (seg_r - seg_l).tdiv 2)
        || reachesNull right l r (seg_l + (seg_r - seg_l).tdiv 2) seg_r

/-- The recursive `ChangeElement` (main.cpp, lines 127-145) with the allocations recorded: the
result is paired with the ranges `(seg_l, seg_r)` of the calls that executed a
`std::make_shared`, the call itself first. Every node of the result that is not listed is a
pointer copied from the old tree. -/
def ChangeElementLog : Segment → Int → Int → Int → Int → Option (Segment × List (Int × Int))
  | .null, i, seg_l, seg_r, value =>
    if seg_l = i ∧ i = seg_r - 1 then some (.mk value .null .null, [(seg_l, seg_r)])
    else none
  | .mk _ left right, i, seg_l, seg_r, value =>
    if seg_l = i ∧ i = seg_r - 1 then some (.mk value .null .null, [(seg_l, seg_r)])
    else
      let seg_m := seg_l + (seg_r - seg_l).tdiv 2
      if i < seg_m then do
        let (new_left, created) ← ChangeElementLog left i seg_l seg_m value
        let a ← new_left.getValue
        let b ← right.getValue
        pure (.mk (add32 a b) new_left right, (seg_l, seg_r) :: created)
      else do
        let (new_right, created) ← ChangeElementLog right i seg_m seg_r value
        let a ← left.getValue
        let b ← new_right.getValue
        pure (.mk (add32 a b) left new_right, (seg_l, seg_r) :: created)

end Segment

/-! ## Sums over index ranges and the midpoint -/

theorem sum_Ico_split (f : Int → Int) (a m b : Int) (h1 : a ≤ m) (h2 : m ≤ b) :
    ∑ j ∈ Finset.Ico a m, f j + ∑ j ∈ Finset.Ico m b, f j = ∑ j ∈ Finset.Ico a b, f j := by
  rw [← Finset.sum_union (Finset.Ico_disjoint_Ico_consecutive a m b),
    Finset.Ico_union_Ico_eq_Ico h1 h2]

theorem sum_Ico_one (f : Int → Int) (a b : Int) (h : b = a + 1) :
    ∑ j ∈ Finset.Ico a b, f j = f a := by
  have hs : Finset.Ico a b = {a} := by
    ext j
    simp only [Finset.mem_Ico, Finset.mem_singleton]
    omega
  rw [hs, Finset.sum_singleton]

theorem sum_Ico_empty (f : Int → Int) (a b : Int) (h : b ≤ a) :
    ∑ j ∈ Finset.Ico a b, f j = 0 := by
  rw [Finset.Ico_eq_empty (by omega), Finset.sum_empty]

/-- The parts of a clamped range that fall into the two halves of a node add up. -/
theorem sum_Ico_clamp (f : Int → Int) (l r a m b : Int) (h1 : a ≤ m) (h2 : m ≤ b) :
    ∑ j ∈ Finset.Ico (max l a) (min r m), f j + ∑ j ∈ Finset.Ico (max l m) (min r b), f j
      = ∑ j ∈ Finset.Ico (max l a) (min r b), f j := by
  by_cases hr : r ≤ m
  · have e1 : min r m = min r b := by omega
    rw [sum_Ico_empty f (max l m) (min r b) (by omega), e1, add_zero]
  · by_cases hl : m ≤ l
    · have e1 : max l m = max l a := by omega
      rw [sum_Ico_empty f (max l a) (min r m) (by omega), e1, zero_add]
    · have e1 : min r m = m := by omega
      have e2 : max l m = m := by omega
      rw [e1, e2]
      exact sum_Ico_split f _ _ _ (by omega) (by omega)

/-- The midpoint of a range of length at least 2 lies strictly inside it. -/
theorem mid_bounds (l r : Int) (h : 2 ≤ r - l) :
    l < l + (r - l).tdiv 2 ∧ l + (r - l).tdiv 2 < r := by
  have e : (r - l).tdiv 2 = (r - l) / 2 := Int.tdiv_eq_ediv (by omega) (by omega)
  omega

/-- The midpoint of a range of length 1 is its left end. -/
theorem mid_unit (l r : Int) (h : r - l = 1) : l + (r - l).tdiv 2 = l := by
  have e : (r - l).tdiv 2 = (r - l) / 2 := Int.tdiv_eq_ediv (by omega) (by omega)
  omega

/-! ## Arithmetic of the C++ `int` -/

theorem wrap_of_isInt (x : Int) (h : isInt x) : wrap x = x := by
  unfold isInt at h
  unfold wrap
  omega

theorem isInt_wrap (x : Int) : isInt (wrap x) := by
  unfold isInt wrap
  omega

theorem wrap_wrap (x : Int) : wrap (wrap x) = wrap x :=
  wrap_of_isInt _ (isInt_wrap x)

theorem wrap_zero : wrap 0 = 0 := by decide

/-- Wrapping the sum of two integers depends only on the wrapped summands. -/
theorem wrap_add_congr {a a' b b' : Int} (ha : wrap a = wrap a') (hb : wrap b = wrap b') :
    wrap (a + b) = wrap (a' + b') := by
  unfold wrap at *
  omega

theorem add32_zero_left (a : Int) : add32 0 a = wrap a := by
  unfold add32
  rw [zero_add]

@[simp] theorem Run.ok_bind {α β : Type} (a : α) (f : α → Run β) : (Run.ok a >>= f) = f a := rfl

@[simp] theorem Run.outOfFuel_bind {α β : Type} (f : α → Run β) :
    ((Run.outOfFuel : Run α) >>= f) = Run.outOfFuel := rfl

@[simp] theorem Run.pure_eq {α : Type} (a : α) : (pure a : Run α) = Run.ok a := rfl

/-! ## The representation invariant through build, query and update -/

namespace Segment

theorem Holds.lt {f : Int → Int} {t : Segment} {l r : Int} (h : Holds f t l r) : l < r := by
  cases h with
  | leaf _ _ h => omega
  | inner _ _ _ _ h _ _ => omega

/-- The value of the root of a tree of the logical array is congruent to the sum of the array
over the range. -/
theorem Holds.getValue_eq {f : Int → Int} {t : Segment} {l r : Int} (h : Holds f t l r) :
    ∃ v, t.getValue = some v ∧ wrap v = wrap (∑ j ∈ Finset.Ico l r, f j) := by
  cases h with
  | leaf _ _ h => exact ⟨f l, rfl, by rw [sum_Ico_one f l r h]⟩
  | inner _ _ _ _ h _ _ => exact ⟨_, rfl, wrap_wrap _⟩

/-- The `int` sum of the values of the two children is the wrapped sum of the array over the
range of the parent. -/
theorem Holds.add32_eq {f : Int → Int} {left right : Segment} {l m r : Int}
    (hl : Holds f left l m) (hr : Holds f right m r) :
    ∃ a b, left.getValue = some a ∧ right.getValue = some b ∧
      add32 a b = wrap (∑ j ∈ Finset.Ico l r, f j) := by
  obtain ⟨a, ea, ha⟩ := hl.getValue_eq
  obtain ⟨b, eb, hb⟩ := hr.getValue_eq
  refine ⟨a, b, ea, eb, ?_⟩
  unfold add32
  rw [wrap_add_congr ha hb, sum_Ico_split f l m r (le_of_lt hl.lt) (le_of_lt hr.lt)]

theorem Holds.congr {f g : Int → Int} {t : Segment} {l r : Int} (h : Holds f t l r)
    (hfg : ∀ j, l ≤ j → j < r → f j = g j) : Holds g t l r := by
  induction h with
  | leaf l r h =>
    rw [hfg l (le_refl l) (by omega)]
    exact Holds.leaf l r h
  | inner l r left right h hl hr ihl ihr =>
    have hm := mid_bounds l r h
    have hs : ∑ j ∈ Finset.Ico l r, f j = ∑ j ∈ Finset.Ico l r, g j :=
      Finset.sum_congr rfl (fun j hj => by
        rw [Finset.mem_Ico] at hj
        exact hfg j hj.1 hj.2)
    rw [hs]
    exact Holds.inner l r left right h
      (ihl (fun j h1 h2 => hfg j h1 (by omega)))
      (ihr (fun j h1 h2 => hfg j (by omega) h2))

/-- The result of the query is congruent to the sum over the clamped range. -/
theorem queryResult_wrap (f : Int → Int) (l r a b : Int) :
    wrap (queryResult f l r a b) = wrap (∑ j ∈ Finset.Ico (max l a) (min r b), f j) := by
  unfold queryResult
  by_cases hc : b = a + 1 ∧ l ≤ a ∧ b ≤ r
  · rw [if_pos hc, sum_Ico_one f (max l a) (min r b) (by omega)]
    have e : max l a = a := by omega
    rw [e]
  · rw [if_neg hc, wrap_wrap]

/-- When the elements of the array are values of `int`, the result of the query is the wrapped
sum over the clamped range. -/
theorem queryResult_of_isInt (f : Int → Int) (l r a b : Int) (hf : ∀ j, isInt (f j)) :
    queryResult f l r a b = wrap (∑ j ∈ Finset.Ico (max l a) (min r b), f j) := by
  rw [← queryResult_wrap]
  unfold queryResult
  by_cases hc : b = a + 1 ∧ l ≤ a ∧ b ≤ r
  · rw [if_pos hc, wrap_of_isInt _ (hf a)]
  · rw [if_neg hc, wrap_wrap]

/-- The result of a query over an empty or inverted range is 0. -/
theorem queryResult_empty (f : Int → Int) (l r a b : Int) (hrl : r ≤ l) (hab : a < b) :
    queryResult f l r a b = 0 := by
  unfold queryResult
  rw [if_neg (by omega), sum_Ico_empty f _ _ (by omega), wrap_zero]

/-- The result of the query of a single position depends only on the element there. -/
theorem queryResult_point_congr (f g : Int → Int) (j b : Int) (h0 : 0 ≤ j) (h1 : j < b)
    (hfg : f j = g j) : queryResult f j (j + 1) 0 b = queryResult g j (j + 1) 0 b := by
  unfold queryResult
  by_cases hc : b = 0 + 1 ∧ j ≤ 0 ∧ b ≤ j + 1
  · have hj : j = 0 := by omega
    rw [if_pos hc, if_pos hc, ← hj, hfg]
  · rw [if_neg hc, if_neg hc, sum_Ico_one f _ _ (by omega), sum_Ico_one g _ _ (by omega)]
    have e : max j 0 = j := by omega
    rw [e, hfg]

/-- The result of the query of a single position that holds a value of `int` is that
value. -/
theorem queryResult_point (f : Int → Int) (j b : Int) (h0 : 0 ≤ j) (h1 : j < b)
    (hf : isInt (f j)) : queryResult f j (j + 1) 0 b = f j := by
  unfold queryResult
  by_cases hc : b = 0 + 1 ∧ j ≤ 0 ∧ b ≤ j + 1
  · have hj : j = 0 := by omega
    rw [if_pos hc, hj]
  · rw [if_neg hc, sum_Ico_one f _ _ (by omega)]
    have e : max j 0 = j := by omega
    rw [e, wrap_of_isInt _ hf]

/-- On a tree of the logical array the recursive query returns, whatever the query range is,
the stored element at a covered node of length 1 and else the wrapped sum over the part of the
query range that falls into the range of the node. -/
theorem Holds.SegmentValue_eq {f : Int → Int} {t : Segment} {a b : Int} (h : Holds f t a b)
    (l r : Int) :
    t.SegmentValue l r a b = some (queryResult f l r a b) := by
  induction h with
  | leaf a b h =>
    unfold SegmentValue queryResult
    by_cases hc : l ≤ a ∧ b ≤ r
    · rw [if_pos hc, if_pos ⟨h, hc⟩]
    · have hq : ¬ (b = a + 1 ∧ l ≤ a ∧ b ≤ r) := fun h' => hc h'.2
      rw [if_neg hc, if_neg hq]
      by_cases hd : b ≤ l ∨ r ≤ a
      · rw [if_pos hd, sum_Ico_empty f _ _ (by omega), wrap_zero]
      · omega
  | inner a b left right h hl hr ihl ihr =>
    have hm := mid_bounds a b h
    have hne : ¬ (b = a + 1 ∧ l ≤ a ∧ b ≤ r) := by omega
    unfold SegmentValue
    conv_rhs => unfold queryResult
    rw [if_neg hne]
    by_cases hc : l ≤ a ∧ b ≤ r
    · have e1 : max l a = a := by omega
      have e2 : min r b = b := by omega
      rw [if_pos hc, e1, e2]
    · rw [if_neg hc]
      by_cases hd : b ≤ l ∨ r ≤ a
      · rw [if_pos hd, sum_Ico_empty f _ _ (by omega), wrap_zero]
      · rw [if_neg hd]
        simp only [ihl, ihr, Option.bind_eq_bind, Option.some_bind, Option.pure_def]
        unfold add32
        rw [wrap_add_congr (queryResult_wrap f l r a _) (queryResult_wrap f l r _ b),
          sum_Ico_clamp f l r a _ b (by omega) (by omega)]

/-- On a tree of the logical array the recursive update at an index of the range returns the
tree of the array with that position replaced. -/
theorem Holds.ChangeElement_eq {f : Int → Int} {t : Segment} {a b : Int} (h : Holds f t a b)
    (i x : Int) : a ≤ i → i < b →
    ∃ t', t.ChangeElement i a b x = some t' ∧ Holds (Function.update f i x) t' a b := by
  induction h with
  | leaf a b h =>
    intro h1 h2
    have hi : a = i := by omega
    refine ⟨.mk x .null .null, ?_, ?_⟩
    · unfold ChangeElement
      rw [if_pos ⟨hi, by omega⟩]
    · have hleaf := Holds.leaf (f := Function.update f i x) a b h
      rw [hi, Function.update_same] at hleaf
      rw [hi]
      exact hleaf
  | inner a b left right h hl hr ihl ihr =>
    intro h1 h2
    have hm := mid_bounds a b h
    unfold ChangeElement
    rw [if_neg (by omega)]
    by_cases hlt : i < a + (b - a).tdiv 2
    · obtain ⟨nl, e, hn⟩ := ihl h1 hlt
      have hr' : Holds (Function.update f i x) right (a + (b - a).tdiv 2) b :=
        hr.congr (fun j hj1 _ => (Function.update_noteq (by omega) x f).symm)
      obtain ⟨va, vb, ea, eb, hab⟩ := hn.add32_eq hr'
      refine ⟨.mk (wrap (∑ j ∈ Finset.Ico a b, Function.update f i x j)) nl right, ?_,
        Holds.inner a b nl right h hn hr'⟩
      simp only [hlt, if_true, e, ea, eb, hab, Option.bind_eq_bind,
        Option.some_bind, Option.pure_def]
    · obtain ⟨nr, e, hn⟩ := ihr (by omega) h2
      have hl' : Holds (Function.update f i x) left a (a + (b - a).tdiv 2) :=
        hl.congr (fun j _ hj2 => (Function.update_noteq (by omega) x f).symm)
      obtain ⟨va, vb, ea, eb, hab⟩ := hl'.add32_eq hn
      refine ⟨.mk (wrap (∑ j ∈ Finset.Ico a b, Function.update f i x j)) left nr, ?_,
        Holds.inner a b left nr h hl' hn⟩
      simp only [hlt, if_false, e, ea, eb, hab, Option.bind_eq_bind,
        Option.some_bind, Option.pure_def]

/-- The recursive update returns only for an index inside the range of the node: outside it
the descent ends in a dereference of an empty pointer. -/
theorem ChangeElement_some_range (t : Segment) :
    ∀ (i a b x : Int) (t' : Segment), a ≤ b → t.ChangeElement i a b x = some t' →
      a ≤ i ∧ i < b := by
  induction t with
  | null =>
    intro i a b x t' _ h
    unfold ChangeElement at h
    by_cases hc : a = i ∧ i = b - 1
    · omega
    · rw [if_neg hc] at h
      exact Option.noConfusion h
  | mk value left right ihl ihr =>
    intro i a b x t' hab h
    unfold ChangeElement at h
    by_cases hc : a = i ∧ i = b - 1
    · omega
    · rw [if_neg hc] at h
      have e : (b - a).tdiv 2 = (b - a) / 2 := Int.tdiv_eq_ediv (by omega) (by omega)
      by_cases hlt : i < a + (b - a).tdiv 2
      · simp only [hlt, if_true] at h
        cases e1 : left.ChangeElement i a (a + (b - a).tdiv 2) x with
        | none => simp [e1] at h
        | some nl =>
          have := ihl i a _ x nl (by omega) e1
          omega
      · simp only [hlt, if_false] at h
        cases e1 : right.ChangeElement i (a + (b - a).tdiv 2) b x with
        | none => simp [e1] at h
        | some nr =>
          have := ihr i _ b x nr (by omega) e1
          omega

theorem index_eq (arr : List Int) (l : Int) (h0 : 0 ≤ l) (h1 : l < arr.length) :
    index arr l = .ok (elemAt arr l) := by
  have hlt : l.toNat < arr.length := by omega
  unfold index elemAt
  rw [if_neg (by omega), if_neg (by omega), List.getElem?_eq_getElem hlt,
    List.getD_eq_getElem _ _ hlt]

/-- Truncated halving of a length that is not positive gives no positive half. -/
theorem tdiv_two_nonpos (d : Int) (h : d ≤ 0) : d.tdiv 2 ≤ 0 ∧ d - d.tdiv 2 ≤ 0 := by
  have e : d.tdiv 2 = -((-d) / 2) := by
    have h1 : d = -(-d) := by omega
    rw [h1, Int.neg_tdiv, Int.tdiv_eq_ediv (by omega) (by omega), neg_neg]
  omega

/-- The array build gives the same result for every fuel above the length of the range: the
recursion never uses more, so the result of `RecursiveBuildArr` is that of the unfuelled
recursion. -/
theorem RecursiveBuildFuel_eq (arr : List Int) (fuel : Nat) :
    ∀ (fuel' : Nat) (node : Segment) (l r : Int), (r - l).toNat < fuel → (r - l).toNat < fuel' →
      RecursiveBuildFuel fuel node arr l r = RecursiveBuildFuel fuel' node arr l r := by
  induction fuel with
  | zero => intro _ _ _ _ h _; omega
  | succ fuel ih =>
    intro fuel' node l r hf hf'
    cases fuel' with
    | zero => omega
    | succ fuel' =>
      unfold RecursiveBuildFuel
      by_cases h1 : r - l = 1
      · rw [if_pos h1, if_pos h1]
      · rw [if_neg h1, if_neg h1]
        have hlen : 2 ≤ r - l ∨ r - l ≤ 0 := by omega
        by_cases c1 : l + (r - l).tdiv 2 - l > 0
        · have h2 : 2 ≤ r - l := by
            rcases hlen with h | h
            · exact h
            · have := tdiv_two_nonpos (r - l) h
              omega
          have hm := mid_bounds l r h2
          have c2 : r - (l + (r - l).tdiv 2) > 0 := by omega
          simp only [c1, c2, if_true]
          rw [ih fuel' fresh l _ (by omega) (by omega), ih fuel' fresh _ r (by omega) (by omega)]
        · have c2 : ¬ (r - (l + (r - l).tdiv 2) > 0) := by
            rcases hlen with h | h
            · have := mid_bounds l r h
              omega
            · have := tdiv_two_nonpos (r - l) h
              omega
          simp only [c1, c2, if_false]

/-- The array build never runs out of the fuel that `RecursiveBuildArr` gives it. -/
theorem RecursiveBuildFuel_ne_outOfFuel (arr : List Int) (fuel : Nat) :
    ∀ (node : Segment) (l r : Int), (r - l).toNat < fuel →
      RecursiveBuildFuel fuel node arr l r ≠ .outOfFuel := by
  induction fuel with
  | zero => intro _ _ _ h; omega
  | succ fuel ih =>
    intro node l r hf
    unfold RecursiveBuildFuel
    by_cases h1 : r - l = 1
    · rw [if_pos h1]
      cases node with
      | null => exact fun h => Run.noConfusion h
      | mk value left right =>
        simp only [index]
        split
        · exact fun h => Run.noConfusion h
        · split <;> exact fun h => Run.noConfusion h
    · rw [if_neg h1]
      have hlen : 2 ≤ r - l ∨ r - l ≤ 0 := by omega
      rcases hlen with h2 | h0
      · have hm := mid_bounds l r h2
        have c1 : l + (r - l).tdiv 2 - l > 0 := by omega
        have c2 : r - (l + (r - l).tdiv 2) > 0 := by omega
        simp only [c1, c2, if_true]
        have hl := ih fresh l (l + (r - l).tdiv 2) (by omega)
        have hr := ih fresh (l + (r - l).tdiv 2) r (by omega)
        cases node with
        | null => exact fun h => Run.noConfusion h
        | mk value left right =>
          cases el : RecursiveBuildFuel fuel fresh arr l (l + (r - l).tdiv 2) with
          | outOfFuel => exact absurd el hl
          | undefined => exact fun h => Run.noConfusion h
          | ok lt =>
            cases lt with
            | null => exact fun h => Run.noConfusion h
            | mk lv ll lr =>
              simp only [Run.ok_bind, Run.pure_eq]
              cases er : RecursiveBuildFuel fuel fresh arr (l + (r - l).tdiv 2) r with
              | outOfFuel => exact absurd er hr
              | undefined => exact fun h => Run.noConfusion h
              | ok rt =>
                cases rt with
                | null => exact fun h => Run.noConfusion h
                | mk rv rl rr => exact fun h => Run.noConfusion h
      · have ht := tdiv_two_nonpos (r - l) h0
        have c1 : ¬ (l + (r - l).tdiv 2 - l > 0) := by omega
        have c2 : ¬ (r - (l + (r - l).tdiv 2) > 0) := by omega
        simp only [c1, c2, if_false]
        exact fun h => Run.noConfusion h

/-- The array build satisfies the recursion of the source (main.cpp, lines 76-98), with no
fuel left in it. -/
theorem RecursiveBuildArr_unfold (node : Segment) (arr : List Int) (l r : Int) :
    RecursiveBuildArr node arr l r =
      (if r - l = 1 then
        match node with
        | .null => .undefined
        | .mk _ left right => do
          let a ← index arr l
          pure (.mk a left right)
      else
        let m := l + (r - l).tdiv 2
        do
          let node ←
            if m - l > 0 then
              match node with
              | .null => Run.undefined
              | .mk value _ right => do
                let left ← RecursiveBuildArr fresh arr l m
                match left with
                | .null => Run.undefined
                | .mk leftValue _ _ => pure (.mk (add32 value leftValue) left right)
            else pure node
          if r - m > 0 then
            match node with
            | .null => Run.undefined
            | .mk value left _ => do
              let right ← RecursiveBuildArr fresh arr m r
              match right with
              | .null => Run.undefined
              | .mk rightValue _ _ => pure (.mk (add32 value rightValue) left right)
          else pure node) := by
  unfold RecursiveBuildArr
  conv_lhs => unfold RecursiveBuildFuel
  by_cases h1 : r - l = 1
  · rw [if_pos h1, if_pos h1]
  · rw [if_neg h1, if_neg h1]
    have hlen : 2 ≤ r - l ∨ r - l ≤ 0 := by omega
    rcases hlen with h2 | h0
    · have hm := mid_bounds l r h2
      have c1 : l + (r - l).tdiv 2 - l > 0 := by omega
      have c2 : r - (l + (r - l).tdiv 2) > 0 := by omega
      simp only [c1, c2, if_true]
      rw [RecursiveBuildFuel_eq arr (r - l).toNat ((l + (r - l).tdiv 2 - l).toNat + 1) fresh l _
          (by omega) (by omega),
        RecursiveBuildFuel_eq arr (r - l).toNat ((r - (l + (r - l).tdiv 2)).toNat + 1) fresh _ r
          (by omega) (by omega)]
    · have ht := tdiv_two_nonpos (r - l) h0
      have c1 : ¬ (l + (r - l).tdiv 2 - l > 0) := by omega
      have c2 : ¬ (r - (l + (r - l).tdiv 2) > 0) := by omega
      simp only [c1, c2, if_false]

/-- The array build never ends for lack of fuel. -/
theorem RecursiveBuildArr_ne_outOfFuel (node : Segment) (arr : List Int) (l r : Int) :
    RecursiveBuildArr node arr l r ≠ .outOfFuel :=
  RecursiveBuildFuel_ne_outOfFuel arr _ node l r (by omega)

/-- With more fuel than the length of the range, the array build of a non-empty range inside
the array returns the tree of the array over that range. -/
theorem RecursiveBuildFuel_holds (arr : List Int) (fuel : Nat) :
    ∀ l r : Int, 0 ≤ l → l < r → r ≤ arr.length → (r - l).toNat < fuel →
      ∃ t, RecursiveBuildFuel fuel fresh arr l r = .ok t ∧ Holds (elemAt arr) t l r := by
  induction fuel with
  | zero => intro l r _ _ _ h; omega
  | succ fuel ih =>
    intro l r h0 hlr hr hf
    unfold RecursiveBuildFuel
    by_cases h1 : r - l = 1
    · refine ⟨.mk (elemAt arr l) .null .null, ?_, Holds.leaf l r (by omega)⟩
      rw [if_pos h1]
      simp only [fresh, index_eq arr l h0 (by omega), Run.ok_bind, Run.pure_eq]
    · have h2 : 2 ≤ r - l := by omega
      have hm := mid_bounds l r h2
      obtain ⟨lt, el, hl⟩ := ih l (l + (r - l).tdiv 2) h0 hm.1 (by omega) (by omega)
      obtain ⟨rt, er, hr⟩ := ih (l + (r - l).tdiv 2) r (by omega) hm.2 hr (by omega)
      refine ⟨.mk (wrap (∑ j ∈ Finset.Ico l r, elemAt arr j)) lt rt, ?_,
        Holds.inner l r lt rt h2 hl hr⟩
      obtain ⟨va, vb, hgl, hgr, hab⟩ := hl.add32_eq hr
      rw [if_neg h1]
      have c1 : l + (r - l).tdiv 2 - l > 0 := by omega
      have c2 : r - (l + (r - l).tdiv 2) > 0 := by omega
      simp only [c1, c2, if_true, el, er, Run.ok_bind]
      cases lt with
      | null => simp [getValue] at hgl
      | mk lv ll lr =>
        cases rt with
        | null => simp [getValue] at hgr
        | mk rv rl rr =>
          simp only [getValue, Option.some.injEq] at hgl hgr
          subst hgl hgr
          have hv : add32 (add32 0 lv) rv = wrap (∑ j ∈ Finset.Ico l r, elemAt arr j) := by
            rw [← hab]
            unfold add32
            exact wrap_add_congr (by rw [zero_add, wrap_wrap]) rfl
          simp only [fresh, Run.ok_bind, Run.pure_eq, hv]

end Segment

/-! ## The invariant of the published versions -/

theorem elemAt_set (arr : List Int) (i x : Int) (h0 : 0 ≤ i) (h1 : i < arr.length) :
    elemAt (arr.set i.toNat x) = Function.update (elemAt arr) i x := by
  funext j
  by_cases hj : j = i
  · subst hj
    rw [Function.update_same]
    unfold elemAt
    rw [if_neg (by omega), List.getD_eq_getElem?_getD, List.getElem?_set, if_pos rfl,
      if_pos (by omega)]
    rfl
  · rw [Function.update_noteq hj]
    unfold elemAt
    by_cases hn : j < 0
    · rw [if_pos hn, if_pos hn]
    · rw [if_neg hn, if_neg hn, List.getD_eq_getElem?_getD, List.getD_eq_getElem?_getD,
        List.getElem?_set, if_neg (by omega)]

namespace PersistentSegmentTree

theorem root_eq (t : PersistentSegmentTree) (v : Int) (h0 : 0 ≤ v) :
    t.root v = t.versions[v.toNat]? := by
  unfold root
  rw [if_neg (by omega)]

/-- The array constructor returns on a non-empty array, and its only version is the tree of
the array. -/
theorem ofArr_inv (arr : List Int) (h : arr ≠ []) :
    ∃ node, ofArr arr = .ok ⟨[node], arr.length⟩ ∧ Inv arr.length ⟨[node], arr.length⟩ [arr] := by
  have hpos : 0 < arr.length := List.length_pos.mpr h
  obtain ⟨node, e, hn⟩ := Segment.RecursiveBuildFuel_holds arr (((arr.length : Int) - 0).toNat + 1)
    0 arr.length (le_refl 0) (by omega) (le_refl _) (by omega)
  refine ⟨node, ?_, rfl, hpos, rfl, ?_⟩
  · unfold ofArr Segment.RecursiveBuildArr
    rw [e]
    rfl
  · intro k nd a h1 h2
    cases k with
    | zero =>
      simp only [List.getElem?_cons_zero, Option.some.injEq] at h1 h2
      subst h1 h2
      exact ⟨rfl, hn⟩
    | succ k => simp at h1

/-- A published version has a root, which is the tree of its logical array. -/
theorem Inv.root_holds {size : Nat} {t : PersistentSegmentTree} {ls : List (List Int)}
    (h : Inv size t ls) (v : Int) (h0 : 0 ≤ v) (h1 : v < t.versions.length) :
    ∃ node arr, t.root v = some node ∧ ls[v.toNat]? = some arr ∧ arr.length = size ∧
      node.Holds (elemAt arr) 0 size := by
  obtain ⟨_, _, hlen, hall⟩ := h
  have hv : v.toNat < t.versions.length := by omega
  have hv' : v.toNat < ls.length := by omega
  refine ⟨t.versions[v.toNat], ls[v.toNat], ?_, List.getElem?_eq_getElem hv', ?_⟩
  · rw [root_eq t v h0, List.getElem?_eq_getElem hv]
  · exact hall v.toNat _ _ (List.getElem?_eq_getElem hv) (List.getElem?_eq_getElem hv')

/-- The query on a published version returns, for every range, the result for the logical
array of that version: the wrapped sum over the part of the range inside `[0, size)`, or the
stored element when the tree is a single covered node. -/
theorem Inv.segmentValue_clamped {size : Nat} {t : PersistentSegmentTree} {ls : List (List Int)}
    (h : Inv size t ls) (v : Int) (h0 : 0 ≤ v) (h1 : v < t.versions.length) (l r : Int) :
    ∃ arr, ls[v.toNat]? = some arr ∧ arr.length = size ∧
      t.SegmentValue v l r = some (Segment.queryResult (elemAt arr) l r 0 size) := by
  obtain ⟨node, arr, e1, e2, e3, hn⟩ := h.root_holds v h0 h1
  refine ⟨arr, e2, e3, ?_⟩
  unfold SegmentValue
  rw [e1, h.1]
  exact hn.SegmentValue_eq l r

/-- A call of `ChangeElement` that returns named a published version and an index of the array,
appended one root and returned the number of versions published before. -/
theorem ChangeElement_returned {t t' : PersistentSegmentTree} {v i x ret : Int}
    (h : t.ChangeElement v i x = .returned t' ret) :
    0 ≤ v ∧ v < t.versions.length ∧ 0 ≤ i ∧ i < t.size ∧ ret = t.versions.length ∧
      ∃ node newRoot, t.root v = some node ∧
        node.ChangeElement i 0 t.size x = some newRoot ∧
        t' = ⟨t.versions ++ [newRoot], t.size⟩ := by
  unfold ChangeElement at h
  by_cases hv : v < 0
  · simp [root, hv] at h
  · cases e : t.versions[v.toNat]? with
    | none => simp [root, hv, e] at h
    | some node =>
      have hlt : v.toNat < t.versions.length := by
        by_contra hc
        rw [List.getElem?_eq_none (by omega)] at e
        exact Option.noConfusion e
      cases e2 : node.ChangeElement i 0 t.size x with
      | none => simp [root, hv, e, e2] at h
      | some newRoot =>
        simp only [root, hv, if_false, e, e2] at h
        by_cases hi : i < 0 ∨ i ≥ t.size
        · simp [hi] at h
        · rw [if_neg hi] at h
          simp only [Outcome.returned.injEq] at h
          refine ⟨by omega, by omega, by omega, by omega, ?_, node, newRoot, ?_, e2, h.1.symm⟩
          · rw [← h.2]
            simp
          · rw [root_eq t v (by omega), e]

/-- The `throw` of the public `ChangeElement` is never reached: for an index outside
`[0, size)` the rebuild before the check has undefined behaviour. -/
theorem ChangeElement_ne_outOfRange (t t' : PersistentSegmentTree) (v i x : Int) :
    t.ChangeElement v i x ≠ .outOfRange t' := by
  unfold ChangeElement
  cases e : t.root v with
  | none => simp
  | some node =>
    cases e2 : node.ChangeElement i 0 t.size x with
    | none => simp [e2]
    | some newRoot =>
      have hr := Segment.ChangeElement_some_range node i 0 t.size x newRoot (by omega) e2
      have hc : ¬ (i < 0 ∨ i ≥ t.size) := by omega
      simp only [e2, if_neg hc]
      exact fun h => Outcome.noConfusion h

/-- A valid call of `ChangeElement` on a state satisfying the invariant returns: it appends the
tree of the updated logical array and returns the number of versions published before. -/
theorem Inv.changeElement_valid {size : Nat} {t : PersistentSegmentTree} {ls : List (List Int)}
    (h : Inv size t ls) (v i x : Int) (hv0 : 0 ≤ v) (hv1 : v < t.versions.length)
    (hi0 : 0 ≤ i) (hi1 : i < size) :
    ∃ newRoot, t.ChangeElement v i x
        = .returned ⟨t.versions ++ [newRoot], t.size⟩ t.versions.length ∧
      Inv size ⟨t.versions ++ [newRoot], t.size⟩ (logicalStep ls ⟨v, i, x⟩) := by
  obtain ⟨node, arr, e1, e2, e3, hn⟩ := h.root_holds v hv0 hv1
  obtain ⟨newRoot, e4, hnew⟩ := hn.ChangeElement_eq i x hi0 hi1
  obtain ⟨hsz, hpos, hlen, hall⟩ := h
  refine ⟨newRoot, ?_, hsz, hpos, ?_, ?_⟩
  · unfold ChangeElement
    simp only [e1, hsz, e4]
    rw [if_neg (by omega)]
    simp
  · simp [logicalStep, hlen]
  · intro k nd a h1 h2
    have hgetD : ls.getD v.toNat [] = arr := by
      rw [List.getD_eq_getElem?_getD, e2]
      rfl
    simp only [logicalStep, hgetD] at h2
    simp only at h1
    by_cases hk : k < t.versions.length
    · rw [List.getElem?_append_left hk] at h1
      rw [List.getElem?_append_left (by omega)] at h2
      exact hall k nd a h1 h2
    · rw [List.getElem?_append_right (by omega)] at h1
      rw [List.getElem?_append_right (by omega)] at h2
      have hk0 : k - t.versions.length = 0 := by
        by_contra hc
        rw [List.getElem?_eq_none (by simp; omega)] at h1
        exact Option.noConfusion h1
      rw [hk0] at h1
      rw [← hlen, hk0] at h2
      simp only [List.getElem?_cons_zero, Option.some.injEq] at h1 h2
      subst h1 h2
      refine ⟨by simp [e3], ?_⟩
      rw [elemAt_set arr i x hi0 (by omega)]
      exact hnew

/-- Valid calls on a state satisfying the invariant all return, and the final state satisfies
the invariant for the logical arrays extended by the calls. -/
theorem Inv.changeAll_valid {size : Nat} (us : List Update) :
    ∀ (t : PersistentSegmentTree) (ls : List (List Int)), Inv size t ls →
      validUpdates size ls.length us = true →
      ∃ t' rets, t.changeAll us = some (t', rets) ∧ Inv size t' (us.foldl logicalStep ls) := by
  induction us with
  | nil => intro t ls h _; exact ⟨t, [], rfl, h⟩
  | cons u us ih =>
    intro t ls h hv
    simp only [validUpdates, Bool.and_eq_true, decide_eq_true_eq] at hv
    obtain ⟨⟨⟨⟨hv0, hv1⟩, hi0⟩, hi1⟩, hrest⟩ := hv
    have hlen := h.2.2.1
    obtain ⟨newRoot, e, hinv⟩ := h.changeElement_valid u.version u.i u.value hv0 (by omega) hi0 hi1
    have hlen' : (logicalStep ls ⟨u.version, u.i, u.value⟩).length = ls.length + 1 := by
      simp [logicalStep]
    obtain ⟨t', rets, e', hinv'⟩ := ih _ _ hinv (by rw [hlen']; exact hrest)
    refine ⟨t', t.versions.length :: rets, ?_, hinv'⟩
    unfold changeAll
    rw [e]
    simp only [e']

/-- Calls without undefined behaviour from a state satisfying the invariant lead to a state
satisfying the invariant for the logical arrays extended by the calls. -/
theorem Inv.changeAll_some {size : Nat} (us : List Update) :
    ∀ (t t' : PersistentSegmentTree) (ls : List (List Int)) (rets : List Int), Inv size t ls →
      t.changeAll us = some (t', rets) → Inv size t' (us.foldl logicalStep ls) := by
  induction us with
  | nil =>
    intro t t' ls rets h e
    simp only [changeAll, Option.some.injEq, Prod.mk.injEq] at e
    rw [← e.1]
    exact h
  | cons u us ih =>
    intro t t' ls rets h e
    unfold changeAll at e
    cases e1 : t.ChangeElement u.version u.i u.value with
    | undefined => simp [e1] at e
    | outOfRange t1 => exact absurd e1 (ChangeElement_ne_outOfRange t t1 _ _ _)
    | returned t1 ret =>
      obtain ⟨hv0, hv1, hi0, hi1, _, _⟩ := ChangeElement_returned e1
      obtain ⟨newRoot, e2, hinv⟩ :=
        h.changeElement_valid u.version u.i u.value hv0 hv1 hi0 (by rw [← h.1]; exact hi1)
      rw [e1] at e2
      simp only [Outcome.returned.injEq] at e2
      rw [← e2.1] at hinv
      simp only [e1] at e
      cases e3 : t1.changeAll us with
      | none => simp [e3] at e
      | some p =>
        simp only [e3, Option.some.injEq, Prod.mk.injEq] at e
        have := ih t1 p.1 _ p.2 hinv e3
        rw [← e.1]
        exact this

/-- A run from a non-empty array without undefined behaviour ends in a state satisfying the
invariant for the logical arrays of the run. -/
theorem run_inv {arr : List Int} {us : List Update} {t : PersistentSegmentTree}
    {rets : List Int} (hA : arr ≠ []) (h : run arr us = some (t, rets)) :
    Inv arr.length t (logicalArrays arr us) := by
  obtain ⟨node, e, hinv⟩ := ofArr_inv arr hA
  unfold run at h
  rw [e] at h
  exact Inv.changeAll_some us _ t [arr] rets hinv h

/-- In a run without undefined behaviour every call returns, and the returned values count
up from the number of versions published before the first call. -/
theorem changeAll_rets (us : List Update) :
    ∀ (t t' : PersistentSegmentTree) (rets : List Int), t.changeAll us = some (t', rets) →
      t'.versions.length = t.versions.length + us.length ∧ rets.length = us.length ∧
        ∀ k : Nat, k < us.length → rets[k]? = some ((t.versions.length : Int) + k) := by
  induction us with
  | nil =>
    intro t t' rets e
    simp only [changeAll, Option.some.injEq, Prod.mk.injEq] at e
    rw [← e.1, ← e.2]
    simp
  | cons u us ih =>
    intro t t' rets e
    unfold changeAll at e
    cases e1 : t.ChangeElement u.version u.i u.value with
    | undefined => simp [e1] at e
    | outOfRange t1 => exact absurd e1 (ChangeElement_ne_outOfRange t t1 _ _ _)
    | returned t1 ret =>
      obtain ⟨_, _, _, _, hret, _, newRoot, _, _, ht1⟩ := ChangeElement_returned e1
      simp only [e1] at e
      cases e3 : t1.changeAll us with
      | none => simp [e3] at e
      | some p =>
        simp only [e3, Option.some.injEq, Prod.mk.injEq] at e
        obtain ⟨h1, h2, h3⟩ := ih t1 p.1 p.2 e3
        have hl1 : t1.versions.length = t.versions.length + 1 := by
          rw [ht1]
          simp
        rw [← e.1, ← e.2]
        refine ⟨by rw [h1, hl1, List.length_cons]; omega, by simp [h2], ?_⟩
        intro k hk
        cases k with
        | zero => simp [hret]
        | succ k =>
          rw [List.getElem?_cons_succ, h3 k (by simpa using hk), hl1]
          push_cast
          congr 1
          omega

/-- The query of a single position of a published version returns the result for that
position of the logical array of that version. -/
theorem Inv.point_eq {size : Nat} {t : PersistentSegmentTree} {ls : List (List Int)}
    (h : Inv size t ls) (v : Int) (h0 : 0 ≤ v) (h1 : v < t.versions.length) (j : Int) :
    ∃ arr, ls[v.toNat]? = some arr ∧ arr.length = size ∧
      t.SegmentValue v j (j + 1) = some (Segment.queryResult (elemAt arr) j (j + 1) 0 size) :=
  h.segmentValue_clamped v h0 h1 j (j + 1)

/-- A state built by the array constructor has exactly one version. -/
theorem ofArr_versions {arr : List Int} {t : PersistentSegmentTree} (h : ofArr arr = .ok t) :
    t.versions.length = 1 ∧ t.size = arr.length := by
  unfold ofArr at h
  cases e : Segment.RecursiveBuildArr Segment.fresh arr 0 arr.length with
  | undefined => rw [e] at h; exact Run.noConfusion h
  | outOfFuel => rw [e] at h; exact Run.noConfusion h
  | ok node =>
    rw [e] at h
    simp only [Run.ok_bind, Run.pure_eq, Run.ok.injEq] at h
    rw [← h]
    exact ⟨rfl, rfl⟩

/-- Appending a root changes neither the root nor the query results of a published
version. -/
theorem SegmentValue_append (t : PersistentSegmentTree) (newRoot : Segment) (u l r : Int)
    (h1 : u < t.versions.length) :
    (⟨t.versions ++ [newRoot], t.size⟩ : PersistentSegmentTree).SegmentValue u l r
      = t.SegmentValue u l r := by
  unfold SegmentValue root
  by_cases h0 : u < 0
  · rw [if_pos h0, if_pos h0]
  · rw [if_neg h0, if_neg h0, List.getElem?_append_left (by omega)]

end PersistentSegmentTree

theorem logicalArrays_length (arr : List Int) (us : List Update) :
    (logicalArrays arr us).length = us.length + 1 := by
  have key : ∀ (us : List Update) (ls : List (List Int)),
      (us.foldl logicalStep ls).length = ls.length + us.length := by
    intro us
    induction us with
    | nil => intro ls; rfl
    | cons u us ih =>
      intro ls
      rw [List.foldl_cons, ih]
      simp only [logicalStep, List.length_append, List.length_cons, List.length_nil]
      omega
  rw [logicalArrays, key]
  simp
  omega

namespace PersistentSegmentTree

/-- The public functions read `versions[version]` unchecked: there is no root for an index
that is not published. -/
theorem root_unpublished (t : PersistentSegmentTree) (v : Int)
    (h : ¬ (0 ≤ v ∧ v < t.versions.length)) : t.root v = none := by
  unfold root
  by_cases h0 : v < 0
  · rw [if_pos h0]
  · rw [if_neg h0]
    exact List.getElem?_eq_none (by omega)

end PersistentSegmentTree

namespace Segment

/-- The zero-initialising build of a non-empty range exhausts every fuel: a range of length 1
creates a right child for the same range, and a longer range first descends into its left
half. -/
theorem RecursiveBuild_outOfFuel (fuel : Nat) :
    ∀ (value : Int) (left right : Segment) (l r : Int), l < r →
      RecursiveBuild fuel (.mk value left right) l r = .outOfFuel := by
  induction fuel with
  | zero => intro _ _ _ _ _ _; rfl
  | succ fuel ih =>
    intro value left right l r hlr
    unfold RecursiveBuild
    by_cases h1 : r - l = 1
    · have hm := mid_unit l r h1
      have c1 : ¬ (l + (r - l).tdiv 2 - l > 0) := by omega
      have c2 : r - (l + (r - l).tdiv 2) > 0 := by omega
      simp only [c1, c2, if_true, if_false, Run.pure_eq, Run.ok_bind, fresh]
      rw [hm, ih 0 .null .null l r hlr]
      rfl
    · have hm := mid_bounds l r (by omega)
      have c1 : l + (r - l).tdiv 2 - l > 0 := by omega
      simp only [c1, if_true, fresh]
      rw [ih 0 .null .null l _ hm.1]
      rfl

end Segment

/-! ## Inputs that are values of `int` -/

theorem elemAt_isInt (arr : List Int) (h : ∀ x ∈ arr, isInt x) (j : Int) :
    isInt (elemAt arr j) := by
  unfold elemAt
  by_cases hj : j < 0
  · rw [if_pos hj]
    decide
  · rw [if_neg hj, List.getD_eq_getElem?_getD]
    cases e : arr[j.toNat]? with
    | none => decide
    | some x => exact h x (List.getElem?_mem e)

/-- With inputs that are values of `int`, every element of every logical array is one. -/
theorem logicalArrays_isInt (arr : List Int) (us : List Update) (h : intInputs arr us) :
    ∀ a ∈ logicalArrays arr us, ∀ x ∈ a, isInt x := by
  have key : ∀ (us : List Update) (ls : List (List Int)),
      (∀ a ∈ ls, ∀ x ∈ a, isInt x) → (∀ u ∈ us, isInt u.value) →
      ∀ a ∈ us.foldl logicalStep ls, ∀ x ∈ a, isInt x := by
    intro us
    induction us with
    | nil => intro ls hls _; exact hls
    | cons u us ih =>
      intro ls hls hus
      rw [List.foldl_cons]
      refine ih _ ?_ (fun w hw => hus w (List.mem_cons_of_mem _ hw))
      intro a ha x hx
      simp only [logicalStep, List.mem_append, List.mem_singleton] at ha
      rcases ha with ha | ha
      · exact hls a ha x hx
      · subst ha
        rcases List.mem_or_eq_of_mem_set hx with hx' | hx'
        · rw [List.getD_eq_getElem?_getD] at hx'
          cases e : ls[u.version.toNat]? with
          | none => rw [e] at hx'; simp at hx'
          | some b =>
            rw [e] at hx'
            exact hls b (List.getElem?_mem e) x hx'
        · rw [hx']
          exact hus u (List.mem_cons_self _ _)
  exact key us [arr] (fun a ha => by
    rw [List.mem_singleton] at ha
    rw [ha]
    exact h.1) h.2

/-- With inputs that are values of `int`, the logical array of a published version is a
function into `int`. -/
theorem logicalArrays_elemAt_isInt {arr : List Int} {us : List Update} (h : intInputs arr us)
    {k : Nat} {a : List Int} (ha : (logicalArrays arr us)[k]? = some a) (j : Int) :
    isInt (elemAt a j) :=
  elemAt_isInt a (logicalArrays_isInt arr us h a (List.getElem?_mem ha)) j

/-! ## The claims -/

/-- C1: range-sum correctness on every version. For a non-empty array of `int` values and a
sequence of calls of `ChangeElement` that each name a published version, an index in
`[0, size)` and an `int` value, every call returns, and in the final state the query of every
published version `v` over `[l, r)` with `0 ≤ l ≤ r ≤ size` returns the sum over `[l, r)` of
the logical array of `v` whenever that sum does not overflow the range of `int`; in every case
it returns that sum wrapped around into the range. -/
theorem segmentValue_range_sum (arr : List Int) (us : List Update) (hA : arr ≠ [])
    (hus : validUpdates arr.length 1 us = true) (hint : intInputs arr us) :
    ∃ t rets, PersistentSegmentTree.run arr us = some (t, rets) ∧
      t.size = arr.length ∧ t.versions.length = us.length + 1 ∧
      ∀ v l r : Int, 0 ≤ v → v < t.versions.length → 0 ≤ l → l ≤ r → r ≤ arr.length →
        ∃ a, (logicalArrays arr us)[v.toNat]? = some a ∧
          (isInt (rangeSum a l r) → t.SegmentValue v l r = some (rangeSum a l r)) ∧
          t.SegmentValue v l r = some (wrap (rangeSum a l r)) := by
  obtain ⟨node, e, hinv⟩ := PersistentSegmentTree.ofArr_inv arr hA
  obtain ⟨t, rets, e', hinv'⟩ := PersistentSegmentTree.Inv.changeAll_valid us _ [arr] hinv hus
  have hlen := (PersistentSegmentTree.changeAll_rets us _ t rets e').1
  refine ⟨t, rets, ?_, hinv'.1, by simpa [Nat.add_comm] using hlen, ?_⟩
  · unfold PersistentSegmentTree.run
    rw [e]
    exact e'
  · intro v l r hv0 hv1 hl hlr hr
    obtain ⟨a, e1, _, e3⟩ := hinv'.segmentValue_clamped v hv0 hv1 l r
    have m1 : max l 0 = l := by omega
    have m2 : min r (arr.length : Int) = r := by omega
    have hq : Segment.queryResult (elemAt a) l r 0 arr.length = wrap (rangeSum a l r) := by
      rw [Segment.queryResult_of_isInt _ _ _ _ _ (logicalArrays_elemAt_isInt hint e1), m1, m2]
      rfl
    rw [hq] at e3
    refine ⟨a, e1, ?_, e3⟩
    intro hfit
    rw [e3, wrap_of_isInt _ hfit]

/-- An instance of C1: the array `[1, 2, 3, 4, 5]` with the calls `ChangeElement(0, 0, 2)` and
`ChangeElement(1, 4, 9)`. -/
theorem segmentValue_range_sum_witness :
    ([1, 2, 3, 4, 5] : List Int) ≠ [] ∧
    validUpdates ([1, 2, 3, 4, 5] : List Int).length 1 [⟨0, 0, 2⟩, ⟨1, 4, 9⟩] = true ∧
    intInputs [1, 2, 3, 4, 5] [⟨0, 0, 2⟩, ⟨1, 4, 9⟩] ∧
    ∃ t rets, PersistentSegmentTree.run [1, 2, 3, 4, 5] [⟨0, 0, 2⟩, ⟨1, 4, 9⟩] = some (t, rets) ∧
      t.size = ([1, 2, 3, 4, 5] : List Int).length ∧
      t.versions.length = ([⟨0, 0, 2⟩, ⟨1, 4, 9⟩] : List Update).length + 1 ∧
      ∀ v l r : Int, 0 ≤ v → v < t.versions.length → 0 ≤ l → l ≤ r →
        r ≤ ([1, 2, 3, 4, 5] : List Int).length →
        ∃ a, (logicalArrays [1, 2, 3, 4, 5] [⟨0, 0, 2⟩, ⟨1, 4, 9⟩])[v.toNat]? = some a ∧
          (isInt (rangeSum a l r) → t.SegmentValue v l r = some (rangeSum a l r)) ∧
          t.SegmentValue v l r = some (wrap (rangeSum a l r)) :=
  ⟨by decide, by decide, by decide,
    segmentValue_range_sum [1, 2, 3, 4, 5] [⟨0, 0, 2⟩, ⟨1, 4, 9⟩] (by decide) (by decide)
      (by decide)⟩

/-- C2: update isolation. In a state reached from a non-empty array, a call
`ChangeElement(v, i, x)` with `v` published, `0 ≤ i < size` and `x` an `int` value returns a
version `v'` whose query at `[i, i+1)` is `x` and whose query at `[j, j+1)` for every other `j` in `[0, size)` is
that of `v`, and the query of `v` at `[i, i+1)` is the same after the call as before. -/
theorem update_isolation (arr : List Int) (us : List Update) (t : PersistentSegmentTree)
    (rets : List Int) (hA : arr ≠ []) (hrun : PersistentSegmentTree.run arr us = some (t, rets))
    (v i x : Int) (hv0 : 0 ≤ v) (hv1 : v < t.versions.length) (hi0 : 0 ≤ i) (hi1 : i < t.size)
    (hx : isInt x) :
    ∃ t' v', t.ChangeElement v i x = .returned t' v' ∧
      t'.SegmentValue v' i (i + 1) = some x ∧
      (∀ j : Int, 0 ≤ j → j < t.size → j ≠ i →
        ∃ y, t.SegmentValue v j (j + 1) = some y ∧ t'.SegmentValue v' j (j + 1) = some y) ∧
      ∃ y, t.SegmentValue v i (i + 1) = some y ∧ t'.SegmentValue v i (i + 1) = some y := by
  have hinv := PersistentSegmentTree.run_inv hA hrun
  have hsz := hinv.1
  obtain ⟨newRoot, e, hinv'⟩ := hinv.changeElement_valid v i x hv0 hv1 hi0 (by omega)
  obtain ⟨node, a, _, ea, hla, _⟩ := hinv.root_holds v hv0 hv1
  have hlen := hinv.2.2.1
  have hnew : (logicalStep (logicalArrays arr us) ⟨v, i, x⟩)[((t.versions.length : Int)).toNat]?
      = some (a.set i.toNat x) := by
    have hgetD : (logicalArrays arr us).getD v.toNat [] = a := by
      rw [List.getD_eq_getElem?_getD, ea]
      rfl
    simp only [logicalStep, hgetD, Int.toNat_ofNat, hlen]
    exact List.getElem?_concat_length _ _
  have hset := elemAt_set a i x hi0 (by omega)
  have hpt : ∀ j : Int,
      (⟨t.versions ++ [newRoot], t.size⟩ : PersistentSegmentTree).SegmentValue
        t.versions.length j (j + 1)
        = some (Segment.queryResult (Function.update (elemAt a) i x) j (j + 1) 0 arr.length) := by
    intro j
    obtain ⟨a', e1, _, e3⟩ := hinv'.point_eq t.versions.length (by omega) (by simp) j
    rw [hnew, Option.some.injEq] at e1
    rw [e3, ← e1, hset]
  have hold : ∀ j : Int, t.SegmentValue v j (j + 1)
      = some (Segment.queryResult (elemAt a) j (j + 1) 0 arr.length) := by
    intro j
    obtain ⟨a', e1, _, e3⟩ := hinv.point_eq v hv0 hv1 j
    rw [ea, Option.some.injEq] at e1
    rw [e3, e1]
  refine ⟨_, _, e, ?_, ?_, _, hold i, ?_⟩
  · rw [hpt i, Segment.queryResult_point _ i _ hi0 (by omega)
      (by rw [Function.update_same]; exact hx), Function.update_same]
  · intro j hj0 hj1 hne
    refine ⟨_, hold j, ?_⟩
    rw [hpt j, Segment.queryResult_point_congr _ (elemAt a) j _ hj0 (by omega)
      (Function.update_noteq hne x _)]
  · rw [PersistentSegmentTree.SegmentValue_append t newRoot v i (i + 1) hv1]
    exact hold i

/-- An instance of C2: the call `ChangeElement(1, 1, -3)` after `ChangeElement(0, 2, 5)` on the
tree constructed from `[4, 7, 1]`. -/
theorem update_isolation_witness :
    ∃ t rets, PersistentSegmentTree.run [4, 7, 1] [⟨0, 2, 5⟩] = some (t, rets) ∧
      ∃ t' v', t.ChangeElement 1 1 (-3) = .returned t' v' ∧
        t'.SegmentValue v' 1 (1 + 1) = some (-3) ∧
        (∀ j : Int, 0 ≤ j → j < t.size → j ≠ 1 →
          ∃ y, t.SegmentValue 1 j (j + 1) = some y ∧ t'.SegmentValue v' j (j + 1) = some y) ∧
        ∃ y, t.SegmentValue 1 1 (1 + 1) = some y ∧ t'.SegmentValue 1 1 (1 + 1) = some y :=
  ⟨_, _, rfl, update_isolation [4, 7, 1] [⟨0, 2, 5⟩] _ _ (by decide) rfl 1 1 (-3)
    (by decide) (by decide) (by decide) (by decide) (by decide)⟩

/-- C3: a successful `ChangeElement` leaves every existing version untouched. In a state
reached from a non-empty array, a call with `v` published and `0 ≤ i < size` returns a state
whose version table is the old one with exactly one root appended and whose size is the old
one, so the query of every previously published version `u` returns, for all `l` and `r`, the
same value as before the call. -/
theorem changeElement_frame (arr : List Int) (us : List Update) (t : PersistentSegmentTree)
    (rets : List Int) (hA : arr ≠ []) (hrun : PersistentSegmentTree.run arr us = some (t, rets))
    (v i x : Int) (hv0 : 0 ≤ v) (hv1 : v < t.versions.length) (hi0 : 0 ≤ i) (hi1 : i < t.size) :
    ∃ t' ret newRoot, t.ChangeElement v i x = .returned t' ret ∧
      t'.versions = t.versions ++ [newRoot] ∧ t'.size = t.size ∧
      ∀ u l r : Int, 0 ≤ u → u < t.versions.length →
        ∃ y, t.SegmentValue u l r = some y ∧ t'.SegmentValue u l r = some y := by
  have hinv := PersistentSegmentTree.run_inv hA hrun
  obtain ⟨newRoot, e, _⟩ := hinv.changeElement_valid v i x hv0 hv1 hi0 (by rw [← hinv.1]; exact hi1)
  refine ⟨_, _, newRoot, e, rfl, rfl, ?_⟩
  intro u l r hu0 hu1
  obtain ⟨a, _, _, e3⟩ := hinv.segmentValue_clamped u hu0 hu1 l r
  exact ⟨_, e3, by rw [PersistentSegmentTree.SegmentValue_append t newRoot u l r hu1]; exact e3⟩

/-- An instance of C3: the call `ChangeElement(0, 1, 8)` after `ChangeElement(0, 2, 5)` on the
tree constructed from `[4, 7, 1]`. -/
theorem changeElement_frame_witness :
    ∃ t rets, PersistentSegmentTree.run [4, 7, 1] [⟨0, 2, 5⟩] = some (t, rets) ∧
      ∃ t' ret newRoot, t.ChangeElement 0 1 8 = .returned t' ret ∧
        t'.versions = t.versions ++ [newRoot] ∧ t'.size = t.size ∧
        ∀ u l r : Int, 0 ≤ u → u < t.versions.length →
          ∃ y, t.SegmentValue u l r = some y ∧ t'.SegmentValue u l r = some y :=
  ⟨_, _, rfl, changeElement_frame [4, 7, 1] [⟨0, 2, 5⟩] _ _ (by decide) rfl 0 1 8
    (by decide) (by decide) (by decide) (by decide)⟩

/-- C4: version ids are dense and increasing. In a run of the calls `us` on the tree
constructed from `arr` that has no undefined behaviour (a call that throws would be caught
and the run would go on), every call returned and the `k`-th of them (counting from 1)
returned `k`, whichever source versions the calls named; any further call that returns gives
the number of versions published at the time of the call, which is `us.length + 1`, and
publishes exactly one more version. -/
theorem version_ids_dense (arr : List Int) (us : List Update) (t : PersistentSegmentTree)
    (rets : List Int) (hrun : PersistentSegmentTree.run arr us = some (t, rets)) :
    rets.length = us.length ∧
      (∀ k : Nat, k < us.length → rets[k]? = some ((k : Int) + 1)) ∧
      ∀ (v i x : Int) (t' : PersistentSegmentTree) (ret : Int),
        t.ChangeElement v i x = .returned t' ret →
          ret = t.versions.length ∧ ret = (us.length : Int) + 1 ∧
            t'.versions.length = t.versions.length + 1 := by
  unfold PersistentSegmentTree.run at hrun
  cases e : PersistentSegmentTree.ofArr arr with
  | undefined => simp [e] at hrun
  | outOfFuel => simp [e] at hrun
  | ok t0 =>
    simp only [e] at hrun
    have h0 := (PersistentSegmentTree.ofArr_versions e).1
    obtain ⟨h1, h2, h3⟩ := PersistentSegmentTree.changeAll_rets us t0 t rets hrun
    refine ⟨h2, ?_, ?_⟩
    · intro k hk
      rw [h3 k hk, h0]
      congr 1
      push_cast
      omega
    · intro v i x t' ret hret
      obtain ⟨_, _, _, _, hr, _, newRoot, _, _, ht'⟩ :=
        PersistentSegmentTree.ChangeElement_returned hret
      refine ⟨hr, ?_, ?_⟩
      · rw [hr, h1, h0]
        push_cast
        omega
      · rw [ht']
        simp

/-- An instance of C4: three calls on the tree constructed from `[4, 7, 1]`, two of them on
version 0. -/
theorem version_ids_dense_witness :
    ∃ t rets, PersistentSegmentTree.run [4, 7, 1] [⟨0, 2, 5⟩, ⟨0, 0, 1⟩, ⟨1, 1, 1⟩]
        = some (t, rets) ∧
      rets.length = ([⟨0, 2, 5⟩, ⟨0, 0, 1⟩, ⟨1, 1, 1⟩] : List Update).length ∧
      (∀ k : Nat, k < ([⟨0, 2, 5⟩, ⟨0, 0, 1⟩, ⟨1, 1, 1⟩] : List Update).length →
        rets[k]? = some ((k : Int) + 1)) ∧
      ∀ (v i x : Int) (t' : PersistentSegmentTree) (ret : Int),
        t.ChangeElement v i x = .returned t' ret →
          ret = t.versions.length ∧
            ret = (([⟨0, 2, 5⟩, ⟨0, 0, 1⟩, ⟨1, 1, 1⟩] : List Update).length : Int) + 1 ∧
            t'.versions.length = t.versions.length + 1 :=
  ⟨_, _, rfl, version_ids_dense [4, 7, 1] [⟨0, 2, 5⟩, ⟨0, 0, 1⟩, ⟨1, 1, 1⟩] _ _ rfl⟩

/-- C5: build correctness. The array constructor returns on every non-empty array `arr` of
`int` values, and in the tree it builds the query of version 0 at `[i, i+1)` returns `arr[i]`
for every index `i` of the array. -/
theorem build_correct (arr : List Int) (hA : arr ≠ []) (hint : ∀ x ∈ arr, isInt x) :
    ∃ t, PersistentSegmentTree.ofArr arr = .ok t ∧ t.size = arr.length ∧
      ∀ (i : Nat) (hi : i < arr.length), t.SegmentValue 0 i (i + 1) = some arr[i] := by
  obtain ⟨node, e, hinv⟩ := PersistentSegmentTree.ofArr_inv arr hA
  refine ⟨_, e, rfl, ?_⟩
  intro i hi
  obtain ⟨a, e1, _, e3⟩ := hinv.point_eq 0 (le_refl 0) (by simp) i
  simp only [Int.toNat_zero, List.getElem?_cons_zero, Option.some.injEq] at e1
  rw [e3, ← e1, Segment.queryResult_point _ i _ (by omega) (by omega) (elemAt_isInt arr hint i)]
  unfold elemAt
  rw [if_neg (by omega), Int.toNat_ofNat, List.getD_eq_getElem _ _ hi]

/-- An instance of C5: the array `[4, 7, 1]`. -/
theorem build_correct_witness :
    ([4, 7, 1] : List Int) ≠ [] ∧ (∀ x ∈ ([4, 7, 1] : List Int), isInt x) ∧
    ∃ t, PersistentSegmentTree.ofArr [4, 7, 1] = .ok t ∧ t.size = ([4, 7, 1] : List Int).length ∧
      ∀ (i : Nat) (hi : i < ([4, 7, 1] : List Int).length),
        t.SegmentValue 0 i (i + 1) = some ([4, 7, 1] : List Int)[i] :=
  ⟨by decide, by decide, build_correct [4, 7, 1] (by decide) (by decide)⟩

/-- C6 (as the code has it): additivity of queries in the arithmetic of `int`. In a state
reached from a non-empty array with `int` inputs, for every published version `v` and all
`0 ≤ l ≤ m ≤ r ≤ size`, the three queries return and the result over `[l, r)` is the `int` sum
of the results over `[l, m)` and `[m, r)`, that is their sum wrapped around into the range of
`int`; it is their sum whenever that sum lies in the range of `int`. -/
theorem segmentValue_additive (arr : List Int) (us : List Update) (t : PersistentSegmentTree)
    (rets : List Int) (hA : arr ≠ []) (hrun : PersistentSegmentTree.run arr us = some (t, rets))
    (hint : intInputs arr us)
    (v l m r : Int) (hv0 : 0 ≤ v) (hv1 : v < t.versions.length) (hl : 0 ≤ l) (hlm : l ≤ m)
    (hmr : m ≤ r) (hr : r ≤ t.size) :
    ∃ y z, t.SegmentValue v l m = some y ∧ t.SegmentValue v m r = some z ∧
      t.SegmentValue v l r = some (add32 y z) ∧
      (isInt (y + z) → t.SegmentValue v l r = some (y + z)) := by
  have hinv := PersistentSegmentTree.run_inv hA hrun
  have hsz := hinv.1
  obtain ⟨a, e1, _, e3⟩ := hinv.segmentValue_clamped v hv0 hv1 l m
  obtain ⟨a', e1', _, e3'⟩ := hinv.segmentValue_clamped v hv0 hv1 m r
  obtain ⟨a'', e1'', _, e3''⟩ := hinv.segmentValue_clamped v hv0 hv1 l r
  rw [e1, Option.some.injEq] at e1' e1''
  subst e1' e1''
  have hf := logicalArrays_elemAt_isInt hint e1
  have m1 : max l 0 = l := by omega
  have m2 : max m 0 = m := by omega
  have m3 : min m (arr.length : Int) = m := by omega
  have m4 : min r (arr.length : Int) = r := by omega
  have hsum : Segment.queryResult (elemAt a) l r 0 arr.length
      = add32 (Segment.queryResult (elemAt a) l m 0 arr.length)
          (Segment.queryResult (elemAt a) m r 0 arr.length) := by
    unfold add32
    rw [wrap_add_congr (Segment.queryResult_wrap _ l m 0 _) (Segment.queryResult_wrap _ m r 0 _),
      Segment.queryResult_of_isInt _ _ _ _ _ hf, m1, m2, m3, m4,
      sum_Ico_split _ l m r hlm hmr]
  refine ⟨_, _, e3, e3', by rw [e3'', hsum], ?_⟩
  intro hfit
  rw [e3'', hsum]
  unfold add32
  rw [wrap_of_isInt _ hfit]

/-- An instance of the amended C6: version 1 of a tree of size 4 with `l = 0`, `m = 3`,
`r = 4`. -/
theorem segmentValue_additive_witness :
    intInputs [4, 7, 1, 9] [⟨0, 2, 5⟩] ∧
    ∃ t rets, PersistentSegmentTree.run [4, 7, 1, 9] [⟨0, 2, 5⟩] = some (t, rets) ∧
      ∃ y z, t.SegmentValue 1 0 3 = some y ∧ t.SegmentValue 1 3 4 = some z ∧
        t.SegmentValue 1 0 4 = some (add32 y z) ∧
        (isInt (y + z) → t.SegmentValue 1 0 4 = some (y + z)) :=
  ⟨by decide, _, _, rfl,
    segmentValue_additive [4, 7, 1, 9] [⟨0, 2, 5⟩] _ _ (by decide) rfl (by decide) 1 0 3 4
      (by decide) (by decide) (by decide) (by decide) (by decide) (by decide)⟩

/-- C6 fails as stated: on the tree constructed from `[2147483647, 1]` the queries of version 0
over `[0, 1)` and `[1, 2)` return 2147483647 and 1, whose sum is 2147483648, and the query
over `[0, 2)` returns -2147483648. -/
theorem segmentValue_additive_counterexample :
    (PersistentSegmentTree.run [2147483647, 1] []).map
        (fun s => (s.1.SegmentValue 0 0 1, s.1.SegmentValue 0 1 2, s.1.SegmentValue 0 0 2))
      = some (some 2147483647, some 1, some (-2147483648)) ∧
    (2147483647 : Int) + 1 ≠ -2147483648 := by
  decide

/-- C7: empty range. In a state reached from a non-empty array, for every published version
`v` and every `k` with `0 ≤ k ≤ size`, the query over `[k, k)` returns 0. -/
theorem segmentValue_empty (arr : List Int) (us : List Update) (t : PersistentSegmentTree)
    (rets : List Int) (hA : arr ≠ []) (hrun : PersistentSegmentTree.run arr us = some (t, rets))
    (v k : Int) (hv0 : 0 ≤ v) (hv1 : v < t.versions.length) (_hk0 : 0 ≤ k) (_hk1 : k ≤ t.size) :
    t.SegmentValue v k k = some 0 := by
  have hinv := PersistentSegmentTree.run_inv hA hrun
  obtain ⟨a, _, _, e3⟩ := hinv.segmentValue_clamped v hv0 hv1 k k
  rw [e3, Segment.queryResult_empty _ k k 0 _ (le_refl k) (by have := hinv.2.1; omega)]

/-- An instance of C7: version 1 of a tree of size 4 with `k = 4`. -/
theorem segmentValue_empty_witness :
    ∃ t rets, PersistentSegmentTree.run [4, 7, 1, 9] [⟨0, 2, 5⟩] = some (t, rets) ∧
      t.SegmentValue 1 4 4 = some 0 :=
  ⟨_, _, rfl, segmentValue_empty [4, 7, 1, 9] [⟨0, 2, 5⟩] _ _ (by decide) rfl 1 4
    (by decide) (by decide) (by decide) (by decide)⟩

/-- C8 (as the code has it): `ChangeElement` does not validate `version`. In a state reached
from a non-empty array, a call with a `version` that is not a published index signals no
out-of-range error: it reads `versions[version]` out of bounds, which is undefined behaviour.
A call with a published version and `0 ≤ i < size` does not fail: it returns and publishes
exactly one more version. -/
theorem changeElement_no_version_check (arr : List Int) (us : List Update)
    (t : PersistentSegmentTree) (rets : List Int) (hA : arr ≠ [])
    (hrun : PersistentSegmentTree.run arr us = some (t, rets)) (v i x : Int) :
    (¬ (0 ≤ v ∧ v < t.versions.length) → t.ChangeElement v i x = .undefined) ∧
      (0 ≤ v → v < t.versions.length → 0 ≤ i → i < t.size →
        ∃ t' ret, t.ChangeElement v i x = .returned t' ret ∧
          t'.versions.length = t.versions.length + 1) := by
  constructor
  · intro hv
    unfold PersistentSegmentTree.ChangeElement
    rw [PersistentSegmentTree.root_unpublished t v hv]
  · intro hv0 hv1 hi0 hi1
    have hinv := PersistentSegmentTree.run_inv hA hrun
    obtain ⟨newRoot, e, _⟩ :=
      hinv.changeElement_valid v i x hv0 hv1 hi0 (by rw [← hinv.1]; exact hi1)
    exact ⟨_, _, e, by simp⟩

/-- An instance of the amended C8: with the versions 0 and 1 published, a call on version 2 is
undefined and a call on version 1 returns. -/
theorem changeElement_no_version_check_witness :
    ∃ t rets, PersistentSegmentTree.run [4, 7, 1] [⟨0, 2, 5⟩] = some (t, rets) ∧
      ¬ (0 ≤ (2 : Int) ∧ (2 : Int) < t.versions.length) ∧
      t.ChangeElement 2 1 8 = .undefined ∧
      ∃ t' ret, t.ChangeElement 1 1 8 = .returned t' ret ∧
        t'.versions.length = t.versions.length + 1 :=
  ⟨_, _, rfl, by decide,
    (changeElement_no_version_check [4, 7, 1] [⟨0, 2, 5⟩] _ _ (by decide) rfl 2 1 8).1
      (by decide),
    (changeElement_no_version_check [4, 7, 1] [⟨0, 2, 5⟩] _ _ (by decide) rfl 1 1 8).2
      (by decide) (by decide) (by decide) (by decide)⟩

/-- C8 fails as stated: on the tree constructed from `[1, 2, 3]`, which has the single
version 0, the call `ChangeElement(1, 0, 9)` with the unpublished version 1 does not signal an
out-of-range error but is undefined behaviour, and so is the call `ChangeElement(0, 3, 9)` with
the index 3 outside `[0, 3)`, whose rebuild dereferences an empty pointer before the bounds
check is reached. -/
theorem changeElement_rejects_counterexample :
    (PersistentSegmentTree.run [1, 2, 3] []).map
        (fun s => (s.1.versions.length, s.1.ChangeElement 1 0 9, s.1.ChangeElement 0 3 9))
      = some (1, Outcome.undefined, Outcome.undefined) := by
  decide

/-- C9 (as the code has it): `SegmentValue` performs no validation and never signals an
out-of-range error. In a state reached from a non-empty array, the query of a published
version returns an ordinary integer for all integers `l` and `r`, which is 0 whenever
`l ≥ r`; for a `version` that is not a published index it reads `versions[version]` out of
bounds, which is undefined behaviour. -/
theorem segmentValue_no_validation (arr : List Int) (us : List Update)
    (t : PersistentSegmentTree) (rets : List Int) (hA : arr ≠ [])
    (hrun : PersistentSegmentTree.run arr us = some (t, rets)) (v l r : Int) :
    (0 ≤ v → v < t.versions.length →
        ∃ y, t.SegmentValue v l r = some y ∧ (r ≤ l → y = 0)) ∧
      (¬ (0 ≤ v ∧ v < t.versions.length) → t.SegmentValue v l r = none) := by
  constructor
  · intro hv0 hv1
    have hinv := PersistentSegmentTree.run_inv hA hrun
    obtain ⟨a, _, _, e3⟩ := hinv.segmentValue_clamped v hv0 hv1 l r
    refine ⟨_, e3, ?_⟩
    intro hrl
    exact Segment.queryResult_empty _ l r 0 _ hrl (by have := hinv.2.1; omega)
  · intro hv
    unfold PersistentSegmentTree.SegmentValue
    rw [PersistentSegmentTree.root_unpublished t v hv]
    rfl

/-- An instance of the amended C9: with the versions 0 and 1 published, the inverted query
`(1, 2, -1)` returns 0 and a query of version 2 is undefined. -/
theorem segmentValue_no_validation_witness :
    ∃ t rets, PersistentSegmentTree.run [4, 7, 1] [⟨0, 2, 5⟩] = some (t, rets) ∧
      (∃ y, t.SegmentValue 1 2 (-1) = some y ∧ ((-1 : Int) ≤ 2 → y = 0)) ∧
      t.SegmentValue 2 0 1 = none :=
  ⟨_, _, rfl,
    (segmentValue_no_validation [4, 7, 1] [⟨0, 2, 5⟩] _ _ (by decide) rfl 1 2 (-1)).1
      (by decide) (by decide),
    (segmentValue_no_validation [4, 7, 1] [⟨0, 2, 5⟩] _ _ (by decide) rfl 2 0 1).2
      (by decide)⟩

/-- C9 fails as stated: on the tree constructed from `[1, 2, 3, 4, 5]` the query of version 0
over the inverted range `l = 3`, `r = 1` returns the ordinary integer 0, and the query over
`l = -2`, `r = 9`, which lies outside `[0, 5]`, returns the ordinary integer 15. -/
theorem segmentValue_rejects_counterexample :
    (PersistentSegmentTree.run [1, 2, 3, 4, 5] []).map
        (fun s => (s.1.size, s.1.SegmentValue 0 3 1, s.1.SegmentValue 0 (-2) 9))
      = some (5, some 0, some 15) := by
  decide

/-- C10 fails on the code: for every size of at least 1 the zero-initialising constructor
exhausts every fuel, that is, its recursive build never returns. -/
theorem ofSize_never_returns (fuel size : Nat) (h : 1 ≤ size) :
    PersistentSegmentTree.ofSize fuel size = .outOfFuel := by
  unfold PersistentSegmentTree.ofSize
  rw [Segment.fresh, Segment.RecursiveBuild_outOfFuel fuel 0 .null .null 0 size (by omega)]
  rfl

/-- An instance of C10: size 1 with fuel 1000. -/
theorem ofSize_never_returns_witness :
    1 ≤ 1 ∧ PersistentSegmentTree.ofSize 1000 1 = .outOfFuel :=
  ⟨le_refl 1, ofSize_never_returns 1000 1 (le_refl 1)⟩

/-- C11: the end-to-end scenario of `RunAllTests`. The tree constructed from `[1, 2, 3, 4, 5]`
answers the six queries of `TestSums` on version 0 with 1, 2, 3, 6, 7, 15; the call
`ChangeElement(0, 0, 2)` returns 1; afterwards version 0 still gives the same six results and
version 1 gives 2, 2, 4, 7, 7, 16. -/
theorem end_to_end_scenario :
    ∃ t0 t1, PersistentSegmentTree.ofArr [1, 2, 3, 4, 5] = .ok t0 ∧
      TestSums t0 0 = [some 1, some 2, some 3, some 6, some 7, some 15] ∧
      t0.ChangeElement 0 0 2 = .returned t1 1 ∧
      TestSums t1 0 = [some 1, some 2, some 3, some 6, some 7, some 15] ∧
      TestSums t1 1 = [some 2, some 2, some 4, some 7, some 7, some 16] :=
  ⟨_, _, rfl, by decide, rfl, by decide, by decide⟩

/-- C12 (as the code has it): a zero-length array is not rejected. The array constructor
returns a tree of size 0 whose only version is a single node with value 0 and no children;
on it every query of version 0 returns 0, and no call of `ChangeElement` returns or signals an
error. -/
theorem ofArr_empty_accepted :
    ∃ t, PersistentSegmentTree.ofArr [] = .ok t ∧ t.size = 0 ∧
      t.versions = [Segment.mk 0 .null .null] ∧
      (∀ l r : Int, t.SegmentValue 0 l r = some 0) ∧
      ∀ version i value : Int, t.ChangeElement version i value = .undefined := by
  refine ⟨⟨[Segment.mk 0 .null .null], 0⟩, rfl, rfl, rfl, ?_, ?_⟩
  · intro l r
    show (Segment.mk 0 .null .null).SegmentValue l r 0 0 = some 0
    unfold Segment.SegmentValue
    by_cases hc : l ≤ 0 ∧ 0 ≤ r
    · rw [if_pos hc]
    · rw [if_neg hc]
      by_cases hd : 0 ≤ l ∨ r ≤ 0
      · rw [if_pos hd]
      · omega
  · intro version i value
    cases e : PersistentSegmentTree.ChangeElement ⟨[Segment.mk 0 .null .null], 0⟩ version i value with
    | undefined => rfl
    | outOfRange t' => exact absurd e (PersistentSegmentTree.ChangeElement_ne_outOfRange _ _ _ _ _)
    | returned t' ret =>
      obtain ⟨_, _, h0, h1, _⟩ := PersistentSegmentTree.ChangeElement_returned e
      simp only [Nat.cast_zero] at h1
      omega

/-- C12 fails as stated: the array constructor on the zero-length array does not fail, it
returns a tree with one version, a single node. -/
theorem ofArr_empty_counterexample :
    PersistentSegmentTree.ofArr [] = .ok ⟨[Segment.fresh], 0⟩ := by
  decide

/-! ## Shape, sums and height of the trees of the logical arrays -/

namespace Segment

theorem Holds.isNull_eq {f : Int → Int} {t : Segment} {l r : Int} (h : Holds f t l r) :
    t.isNull = false := by
  cases h <;> rfl

/-- The tree of a logical array over a range is determined by the array and the range. -/
theorem Holds.unique {f : Int → Int} {t : Segment} {l r : Int} (h : Holds f t l r) :
    ∀ t' : Segment, Holds f t' l r → t = t' := by
  induction h with
  | leaf l r h =>
    intro t' h'
    cases h' with
    | leaf _ _ _ => rfl
    | inner _ _ _ _ h2 _ _ => omega
  | inner l r left right h hl hr ihl ihr =>
    intro t' h'
    cases h' with
    | leaf _ _ h2 => omega
    | inner _ _ left' right' _ hl' hr' => rw [ihl left' hl', ihr right' hr']

/-- The trees of two logical arrays over the same range have the same shape. -/
theorem Holds.skeleton_eq {f g : Int → Int} {t : Segment} {l r : Int} (h : Holds f t l r) :
    ∀ t' : Segment, Holds g t' l r → t.skeleton = t'.skeleton := by
  induction h with
  | leaf l r h =>
    intro t' h'
    cases h' with
    | leaf _ _ _ => rfl
    | inner _ _ _ _ h2 _ _ => omega
  | inner l r left right h hl hr ihl ihr =>
    intro t' h'
    cases h' with
    | leaf _ _ h2 => omega
    | inner _ _ left' right' _ hl' hr' =>
      simp only [skeleton, ihl left' hl', ihr right' hr']

theorem Holds.wellShaped_eq {f : Int → Int} {t : Segment} {l r : Int} (h : Holds f t l r) :
    t.wellShaped l r = true := by
  induction h with
  | leaf l r h =>
    unfold wellShaped
    rw [if_pos (by omega)]
    rfl
  | inner l r left right h hl hr ihl ihr =>
    have hm := mid_bounds l r h
    unfold wellShaped
    rw [if_neg (by omega), ihl, ihr]
    simp only [Bool.and_true, Bool.and_eq_true, decide_eq_true_eq]
    omega

theorem Holds.sumInvariant_eq {arr : List Int} {t : Segment} {l r : Int}
    (h : Holds (elemAt arr) t l r) : t.sumInvariant arr l r = true := by
  unfold sumInvariant
  induction h with
  | leaf l r h => simp [sumInvariantWith, isNull, h]
  | inner l r left right h hl hr ihl ihr =>
    obtain ⟨va, vb, ea, eb, hab⟩ := hl.add32_eq hr
    unfold sumInvariantWith
    simp only [hl.isNull_eq, hr.isNull_eq, ea, eb, hab, ihl, ihr]
    simp

theorem Holds.reachesNull_eq {f : Int → Int} {t : Segment} {a b : Int} (h : Holds f t a b)
    (l r : Int) : t.reachesNull l r a b = false := by
  induction h with
  | leaf a b h =>
    unfold reachesNull
    by_cases hc : l ≤ a ∧ b ≤ r
    · rw [if_pos hc]
    · rw [if_neg hc, if_pos (by omega)]
  | inner a b left right h hl hr ihl ihr =>
    unfold reachesNull
    rw [ihl, ihr]
    simp

/-- Halving rounds the length of the right half up, and the logarithm counts the halvings. -/
theorem clog_halves (n : Nat) (h : 2 ≤ n) :
    1 + max (Nat.clog 2 (n / 2)) (Nat.clog 2 (n - n / 2)) = Nat.clog 2 n := by
  have h1 : Nat.clog 2 (n / 2) ≤ Nat.clog 2 (n - n / 2) :=
    Nat.clog_mono_right 2 (by omega)
  have h2 : n - n / 2 = (n + 2 - 1) / 2 := by omega
  rw [max_eq_right h1, Nat.clog_of_two_le (by omega) h, h2]
  omega

/-- The tree over a range of length `n` has height `⌈log₂ n⌉`. -/
theorem Holds.height_eq {f : Int → Int} {t : Segment} {l r : Int} (h : Holds f t l r) :
    t.height = Nat.clog 2 (r - l).toNat := by
  induction h with
  | leaf l r h =>
    have e : (r - l).toNat = 1 := by omega
    rw [e, Nat.clog_one_right]
    rfl
  | inner l r left right h hl hr ihl ihr =>
    have e : (r - l).tdiv 2 = (r - l) / 2 := Int.tdiv_eq_ediv (by omega) (by omega)
    have e1 : (l + (r - l).tdiv 2 - l).toNat = (r - l).toNat / 2 := by omega
    have e2 : (r - (l + (r - l).tdiv 2)).toNat = (r - l).toNat - (r - l).toNat / 2 := by omega
    unfold height
    simp only [hl.isNull_eq, hr.isNull_eq, Bool.and_self, Bool.false_eq_true, if_false]
    rw [ihl, ihr, e1, e2]
    exact clog_halves _ (by omega)

end Segment

/-! ## Positions off and on the path of an update -/

theorem rangeAt_left (a b : Int) (p : List Bool) :
    rangeAt a b (false :: p) = rangeAt a (a + (b - a).tdiv 2) p := rfl

theorem rangeAt_right (a b : Int) (p : List Bool) :
    rangeAt a b (true :: p) = rangeAt (a + (b - a).tdiv 2) b p := rfl

namespace Segment

/-- Recording the allocations does not change the result of the recursive update. -/
theorem ChangeElementLog_fst (t : Segment) :
    ∀ i a b x : Int, (t.ChangeElementLog i a b x).map Prod.fst = t.ChangeElement i a b x := by
  induction t with
  | null =>
    intro i a b x
    unfold ChangeElementLog ChangeElement
    by_cases hc : a = i ∧ i = b - 1
    · rw [if_pos hc, if_pos hc]
      rfl
    · rw [if_neg hc, if_neg hc]
      rfl
  | mk value left right ihl ihr =>
    intro i a b x
    unfold ChangeElementLog ChangeElement
    by_cases hc : a = i ∧ i = b - 1
    · rw [if_pos hc, if_pos hc]
      rfl
    · rw [if_neg hc, if_neg hc]
      by_cases hlt : i < a + (b - a).tdiv 2
      · simp only [hlt, if_true]
        rw [← ihl i a _ x]
        cases left.ChangeElementLog i a (a + (b - a).tdiv 2) x with
        | none => rfl
        | some q =>
          obtain ⟨nl, created⟩ := q
          cases hg : nl.getValue <;> cases hg' : right.getValue <;> simp [hg, hg']
      · simp only [hlt, if_false]
        rw [← ihr i _ b x]
        cases right.ChangeElementLog i (a + (b - a).tdiv 2) b x with
        | none => rfl
        | some q =>
          obtain ⟨nr, created⟩ := q
          cases hg : left.getValue <;> cases hg' : nr.getValue <;> simp [hg, hg']

theorem descend_null (p : List Bool) : descend .null p = .null := by
  induction p with
  | nil => rfl
  | cons d p ih => exact ih

/-- The result of the recursive update on the tree of a logical array, in the two cases of the
descent. -/
theorem Holds.ChangeElement_inner {f : Int → Int} {a b : Int} {left right : Segment}
    (h : 2 ≤ b - a) (hl : Holds f left a (a + (b - a).tdiv 2))
    (hr : Holds f right (a + (b - a).tdiv 2) b) (value i x : Int) (h1 : a ≤ i) (h2 : i < b) :
    (i < a + (b - a).tdiv 2 ∧ ∃ nl, left.ChangeElement i a (a + (b - a).tdiv 2) x = some nl ∧
        Holds (Function.update f i x) nl a (a + (b - a).tdiv 2) ∧
        (Segment.mk value left right).ChangeElement i a b x
          = some (.mk (wrap (∑ j ∈ Finset.Ico a b, Function.update f i x j)) nl right)) ∨
      (a + (b - a).tdiv 2 ≤ i ∧ ∃ nr, right.ChangeElement i (a + (b - a).tdiv 2) b x = some nr ∧
        Holds (Function.update f i x) nr (a + (b - a).tdiv 2) b ∧
        (Segment.mk value left right).ChangeElement i a b x
          = some (.mk (wrap (∑ j ∈ Finset.Ico a b, Function.update f i x j)) left nr)) := by
  have hm := mid_bounds a b h
  by_cases hlt : i < a + (b - a).tdiv 2
  · left
    obtain ⟨nl, e, hn⟩ := hl.ChangeElement_eq i x h1 hlt
    have hr' : Holds (Function.update f i x) right (a + (b - a).tdiv 2) b :=
      hr.congr (fun j hj1 _ => (Function.update_noteq (by omega) x f).symm)
    obtain ⟨va, vb, ea, eb, hab⟩ := hn.add32_eq hr'
    refine ⟨hlt, nl, e, hn, ?_⟩
    unfold ChangeElement
    rw [if_neg (by omega)]
    simp only [hlt, if_true, e, ea, eb, hab, Option.bind_eq_bind,
      Option.some_bind, Option.pure_def]
  · right
    obtain ⟨nr, e, hn⟩ := hr.ChangeElement_eq i x (by omega) h2
    have hl' : Holds (Function.update f i x) left a (a + (b - a).tdiv 2) :=
      hl.congr (fun j _ hj2 => (Function.update_noteq (by omega) x f).symm)
    obtain ⟨va, vb, ea, eb, hab⟩ := hl'.add32_eq hn
    refine ⟨by omega, nr, e, hn, ?_⟩
    unfold ChangeElement
    rw [if_neg (by omega)]
    simp only [hlt, if_false, e, ea, eb, hab, Option.bind_eq_bind,
      Option.some_bind, Option.pure_def]

/-- Below every position whose range does not contain the updated index, the result of the
recursive update has the subtree of the old tree. -/
theorem Holds.descend_off_path {f : Int → Int} {t : Segment} {a b : Int} (h : Holds f t a b)
    (i x : Int) : ∀ t' : Segment, a ≤ i → i < b → t.ChangeElement i a b x = some t' →
      ∀ p : List Bool, ¬ ((rangeAt a b p).1 ≤ i ∧ i < (rangeAt a b p).2) →
        t'.descend p = t.descend p := by
  induction h with
  | leaf a b h =>
    intro t' h1 h2 e p hp
    unfold ChangeElement at e
    rw [if_pos (by omega), Option.some.injEq] at e
    subst e
    cases p with
    | nil => exact absurd ⟨h1, h2⟩ hp
    | cons d p => cases d <;> rfl
  | inner a b left right h hl hr ihl ihr =>
    intro t' h1 h2 e p hp
    rcases Holds.ChangeElement_inner h hl hr _ i x h1 h2 with ⟨hlt, nl, e1, _, e2⟩ | ⟨hge, nr, e1, _, e2⟩
    · rw [e2, Option.some.injEq] at e
      subst e
      cases p with
      | nil => exact absurd ⟨h1, h2⟩ hp
      | cons d p =>
        cases d with
        | false => exact ihl nl h1 hlt e1 p hp
        | true => rfl
    · rw [e2, Option.some.injEq] at e
      subst e
      cases p with
      | nil => exact absurd ⟨h1, h2⟩ hp
      | cons d p =>
        cases d with
        | false => rfl
        | true => exact ihr nr hge h2 e1 p hp

end Segment

namespace Segment

theorem inits_ranges (a b : Int) (d : Bool) (p : List Bool) :
    (d :: p).inits.map (fun q => rangeAt a b q)
      = (a, b) :: p.inits.map (fun q => rangeAt (halfRange a b d).1 (halfRange a b d).2 q) := by
  rw [List.inits_cons, List.map_cons, List.map_map]
  rfl

theorem height_inner (value : Int) {left right : Segment} (h : left.isNull = false) :
    (Segment.mk value left right).height = 1 + max left.height right.height := by
  conv_lhs => unfold height
  simp [h]

/-- The recursive update on the tree of a logical array allocates exactly the nodes at the
positions along one path `p`: the path leads to the node of range `[i, i+1)`, it is no longer
than the height of the tree, every range on it contains `i`, and the node at its end is the
new node without children holding the new value. -/
theorem Holds.log_path {f : Int → Int} {t : Segment} {a b : Int} (h : Holds f t a b)
    (i x : Int) : a ≤ i → i < b →
    ∃ (t' : Segment) (p : List Bool),
      t.ChangeElementLog i a b x = some (t', p.inits.map (fun q => rangeAt a b q)) ∧
      rangeAt a b p = (i, i + 1) ∧ p.length ≤ t.height ∧
      t'.descend p = .mk x .null .null ∧
      ∀ q ∈ p.inits, (rangeAt a b q).1 ≤ i ∧ i < (rangeAt a b q).2 := by
  induction h with
  | leaf a b h =>
    intro h1 h2
    have hi : a = i := by omega
    refine ⟨.mk x .null .null, [], ?_, ?_, Nat.zero_le _, rfl, ?_⟩
    · unfold ChangeElementLog
      rw [if_pos ⟨hi, by omega⟩]
      rfl
    · show (a, b) = (i, i + 1)
      rw [hi, h, hi]
    · intro q hq
      change q ∈ [[]] at hq
      rw [List.mem_singleton] at hq
      subst hq
      exact ⟨h1, h2⟩
  | inner a b left right h hl hr ihl ihr =>
    intro h1 h2
    have hm := mid_bounds a b h
    by_cases hlt : i < a + (b - a).tdiv 2
    · obtain ⟨nl, p, e, hrange, hlen, hdesc, hall⟩ := ihl h1 hlt
      obtain ⟨nl0, e0, hn⟩ := hl.ChangeElement_eq i x h1 hlt
      have hfst := ChangeElementLog_fst left i a (a + (b - a).tdiv 2) x
      rw [e, e0, Option.map_some', Option.some.injEq] at hfst
      simp only at hfst
      subst hfst
      obtain ⟨va, ea, _⟩ := hn.getValue_eq
      obtain ⟨vb, eb, _⟩ := hr.getValue_eq
      refine ⟨.mk (add32 va vb) nl right, false :: p, ?_, hrange, ?_, hdesc, ?_⟩
      · unfold ChangeElementLog
        rw [if_neg (by omega), inits_ranges]
        simp only [hlt, if_true, e, ea, eb, Option.bind_eq_bind,
          Option.some_bind, Option.pure_def, halfRange]
        rfl
      · rw [height_inner _ hl.isNull_eq, List.length_cons]
        omega
      · intro q hq
        rw [List.inits_cons, List.mem_cons, List.mem_map] at hq
        rcases hq with hq | ⟨q', hq', hq⟩
        · subst hq
          exact ⟨h1, h2⟩
        · subst hq
          exact hall q' hq'
    · obtain ⟨nr, p, e, hrange, hlen, hdesc, hall⟩ := ihr (by omega) h2
      obtain ⟨nr0, e0, hn⟩ := hr.ChangeElement_eq i x (by omega) h2
      have hfst := ChangeElementLog_fst right i (a + (b - a).tdiv 2) b x
      rw [e, e0, Option.map_some', Option.some.injEq] at hfst
      simp only at hfst
      subst hfst
      obtain ⟨va, ea, _⟩ := hl.getValue_eq
      obtain ⟨vb, eb, _⟩ := hn.getValue_eq
      refine ⟨.mk (add32 va vb) left nr, true :: p, ?_, hrange, ?_, hdesc, ?_⟩
      · unfold ChangeElementLog
        rw [if_neg (by omega), inits_ranges]
        simp only [hlt, if_false, e, ea, eb, Option.bind_eq_bind,
          Option.some_bind, Option.pure_def, halfRange]
        rfl
      · rw [height_inner _ hl.isNull_eq, List.length_cons]
        omega
      · intro q hq
        rw [List.inits_cons, List.mem_cons, List.mem_map] at hq
        rcases hq with hq | ⟨q', hq', hq⟩
        · subst hq
          exact ⟨h1, h2⟩
        · subst hq
          exact hall q' hq'

end Segment

namespace PersistentSegmentTree

/-- A valid call of `ChangeElement` on a state satisfying the invariant, in detail: the root of
the source version is the tree of its logical array, the recursive update of that root returns
the tree of the updated array, and the call appends it as the root of the version it
returns. -/
theorem Inv.changeElement_root {size : Nat} {t : PersistentSegmentTree} {ls : List (List Int)}
    (h : Inv size t ls) (v i x : Int) (hv0 : 0 ≤ v) (hv1 : v < t.versions.length)
    (hi0 : 0 ≤ i) (hi1 : i < size) :
    ∃ (old : Segment) (a : List Int) (new : Segment),
      t.root v = some old ∧ ls[v.toNat]? = some a ∧ a.length = size ∧
      old.Holds (elemAt a) 0 size ∧ old.ChangeElement i 0 size x = some new ∧
      new.Holds (elemAt (a.set i.toNat x)) 0 size ∧
      t.ChangeElement v i x = .returned ⟨t.versions ++ [new], t.size⟩ t.versions.length ∧
      (⟨t.versions ++ [new], t.size⟩ : PersistentSegmentTree).root t.versions.length
        = some new ∧
      Inv size ⟨t.versions ++ [new], t.size⟩ (logicalStep ls ⟨v, i, x⟩) := by
  obtain ⟨old, a, e1, e2, e3, hold⟩ := h.root_holds v hv0 hv1
  obtain ⟨new, e4, hnew⟩ := hold.ChangeElement_eq i x hi0 hi1
  obtain ⟨newRoot, e, hinv'⟩ := h.changeElement_valid v i x hv0 hv1 hi0 hi1
  obtain ⟨_, _, _, _, _, node, nr, hroot, hce, ht'⟩ := ChangeElement_returned e
  rw [e1, Option.some.injEq] at hroot
  subst hroot
  rw [h.1, e4, Option.some.injEq] at hce
  subst hce
  simp only [mk.injEq, List.append_cancel_left_eq, List.cons.injEq, and_true] at ht'
  subst ht'
  refine ⟨old, a, newRoot, e1, e2, e3, hold, e4, ?_, e, ?_, hinv'⟩
  · rw [elemAt_set a i x hi0 (by omega)]
    exact hnew
  · rw [root_eq _ _ (by omega)]
    simp only [Int.toNat_ofNat]
    exact List.getElem?_concat_length _ _

end PersistentSegmentTree

/-- C13 (as the code has it): the sum invariant in the arithmetic of `int`. In a state reached
from a non-empty array the root of every published version satisfies the sum invariant for the
logical array of that version: every node without children has a range of length 1 and holds
the array element at its index, and every other node has two children and holds the `int` sum
of their values, that is their sum wrapped around into the range of `int`, which is their sum
whenever that lies in the range. A valid call of `ChangeElement` returns a version whose root
satisfies the invariant for the updated array, so the invariant, which holds after the build,
is preserved by every valid update. -/
theorem sum_invariant (arr : List Int) (us : List Update) (t : PersistentSegmentTree)
    (rets : List Int) (hA : arr ≠ []) (hrun : PersistentSegmentTree.run arr us = some (t, rets))
    (v : Int) (hv0 : 0 ≤ v) (hv1 : v < t.versions.length) :
    ∃ (node : Segment) (a : List Int), t.root v = some node ∧
      (logicalArrays arr us)[v.toNat]? = some a ∧
      node.sumInvariant a 0 t.size = true ∧
      (∀ i x : Int, 0 ≤ i → i < t.size →
        ∃ (t' : PersistentSegmentTree) (ret : Int) (node' : Segment),
          t.ChangeElement v i x = .returned t' ret ∧ t'.root ret = some node' ∧
            node'.sumInvariant (a.set i.toNat x) 0 t'.size = true) ∧
      ∀ y z : Int, isInt (y + z) → add32 y z = y + z := by
  have hinv := PersistentSegmentTree.run_inv hA hrun
  have hsz := hinv.1
  obtain ⟨node, a, e1, e2, _, hn⟩ := hinv.root_holds v hv0 hv1
  refine ⟨node, a, e1, e2, ?_, ?_, fun y z h => wrap_of_isInt _ h⟩
  · rw [hsz]
    exact hn.sumInvariant_eq
  · intro i x hi0 hi1
    obtain ⟨old, a', new, r1, r2, _, _, _, hnew, hce, hroot, _⟩ :=
      hinv.changeElement_root v i x hv0 hv1 hi0 (by omega)
    rw [e2, Option.some.injEq] at r2
    subst r2
    refine ⟨_, _, new, hce, hroot, ?_⟩
    simp only [hsz]
    exact hnew.sumInvariant_eq

/-- An instance of the amended C13: version 1 of the tree constructed from `[4, 7, 1]` after
`ChangeElement(0, 2, 5)`. -/
theorem sum_invariant_witness :
    ∃ t rets, PersistentSegmentTree.run [4, 7, 1] [⟨0, 2, 5⟩] = some (t, rets) ∧
      ∃ (node : Segment) (a : List Int), t.root 1 = some node ∧
        (logicalArrays [4, 7, 1] [⟨0, 2, 5⟩])[(1 : Int).toNat]? = some a ∧
        node.sumInvariant a 0 t.size = true ∧
        (∀ i x : Int, 0 ≤ i → i < t.size →
          ∃ (t' : PersistentSegmentTree) (ret : Int) (node' : Segment),
            t.ChangeElement 1 i x = .returned t' ret ∧ t'.root ret = some node' ∧
              node'.sumInvariant (a.set i.toNat x) 0 t'.size = true) ∧
        ∀ y z : Int, isInt (y + z) → add32 y z = y + z :=
  ⟨_, _, rfl, sum_invariant [4, 7, 1] [⟨0, 2, 5⟩] _ _ (by decide) rfl 1 (by decide) (by decide)⟩

/-- C13 fails as stated: the root of the tree constructed from `[2147483647, 1]` holds
-2147483648 while its children hold 2147483647 and 1, whose sum is 2147483648, so the sum
invariant read in the integers is false of version 0. -/
theorem sum_invariant_counterexample :
    PersistentSegmentTree.ofArr [2147483647, 1]
      = .ok ⟨[.mk (-2147483648) (.mk 2147483647 .null .null) (.mk 1 .null .null)], 2⟩ ∧
    (Segment.mk (-2147483648) (.mk 2147483647 .null .null)
      (.mk 1 .null .null)).sumInvariantInteger [2147483647, 1] 0 2 = false := by
  decide

/-- C14 fails on the code: the `push_back` and the `throw` of `ChangeElement` are not reached
for an index outside `[0, size)`. In a state reached from a non-empty array, a call with a
published version and such an index has undefined behaviour: the recursive rebuild of the
root, which is evaluated first, does not return (it descends to a node without children and
dereferences an empty child pointer), so no root is appended and no error is signalled. No
call at all signals the out-of-range error. -/
theorem changeElement_bad_index (arr : List Int) (us : List Update)
    (t : PersistentSegmentTree) (rets : List Int) (hA : arr ≠ [])
    (hrun : PersistentSegmentTree.run arr us = some (t, rets))
    (v i x : Int) (hv0 : 0 ≤ v) (hv1 : v < t.versions.length) (hi : i < 0 ∨ (t.size : Int) ≤ i) :
    (∃ node, t.root v = some node ∧ node.ChangeElement i 0 t.size x = none) ∧
      t.ChangeElement v i x = .undefined ∧
      ∀ (w j y : Int) (t' : PersistentSegmentTree), t.ChangeElement w j y ≠ .outOfRange t' := by
  have hinv := PersistentSegmentTree.run_inv hA hrun
  obtain ⟨node, _, e1, _, _, _⟩ := hinv.root_holds v hv0 hv1
  have hnone : node.ChangeElement i 0 t.size x = none := by
    cases e : node.ChangeElement i 0 t.size x with
    | none => rfl
    | some t' =>
      have := Segment.ChangeElement_some_range node i 0 t.size x t' (by omega) e
      omega
  refine ⟨⟨node, e1, hnone⟩, ?_, fun w j y t' =>
    PersistentSegmentTree.ChangeElement_ne_outOfRange t t' w j y⟩
  unfold PersistentSegmentTree.ChangeElement
  rw [e1]
  simp only [hnone]

/-- An instance of C14 at the failing input: the call `ChangeElement(0, 5, 7)` on the tree
constructed from `[1, 2, 3, 4, 5]`. -/
theorem changeElement_bad_index_witness :
    ∃ t rets, PersistentSegmentTree.run [1, 2, 3, 4, 5] [] = some (t, rets) ∧
      (∃ node, t.root 0 = some node ∧ node.ChangeElement 5 0 t.size 7 = none) ∧
      t.ChangeElement 0 5 7 = .undefined ∧
      ∀ (w j y : Int) (t' : PersistentSegmentTree), t.ChangeElement w j y ≠ .outOfRange t' :=
  ⟨_, _, rfl, changeElement_bad_index [1, 2, 3, 4, 5] [] _ _ (by decide) rfl 0 5 7
    (by decide) (by decide) (by decide)⟩

/-- The failing input of C14 evaluated: on the tree constructed from `[1, 2, 3, 4, 5]` the
calls `ChangeElement(0, 5, 7)` and `ChangeElement(0, -1, 7)`, with the published version 0 and
an index outside `[0, 5)`, neither return nor signal the out-of-range error: the rebuild of
the root has undefined behaviour before anything is appended. -/
theorem changeElement_bad_index_evaluated :
    (PersistentSegmentTree.run [1, 2, 3, 4, 5] []).map
        (fun s => (s.1.root 0 |>.bind (fun node => node.ChangeElement 5 0 5 7),
          s.1.ChangeElement 0 5 7, s.1.ChangeElement 0 (-1) 7))
      = some (none, Outcome.undefined, Outcome.undefined) := by
  decide

/-- C15: structural sharing. In a state reached from a non-empty array, for a call
`ChangeElement(v, i, x)` with `v` published and `0 ≤ i < size`, the new root and the old root
have the same subtree at every position whose range does not contain `i` (in particular the
child off the path at every node on the path), and every node the call allocates has a range
that contains `i`. Equal subtrees stand for the same shared node. -/
theorem structural_sharing (arr : List Int) (us : List Update) (t : PersistentSegmentTree)
    (rets : List Int) (hA : arr ≠ []) (hrun : PersistentSegmentTree.run arr us = some (t, rets))
    (v i x : Int) (hv0 : 0 ≤ v) (hv1 : v < t.versions.length) (hi0 : 0 ≤ i) (hi1 : i < t.size) :
    ∃ (t' : PersistentSegmentTree) (ret : Int) (old new : Segment) (created : List (Int × Int)),
      t.ChangeElement v i x = .returned t' ret ∧ t.root v = some old ∧
      t'.root ret = some new ∧ old.ChangeElementLog i 0 t.size x = some (new, created) ∧
      (∀ p : List Bool, ¬ ((rangeAt 0 t.size p).1 ≤ i ∧ i < (rangeAt 0 t.size p).2) →
        new.descend p = old.descend p) ∧
      ∀ c ∈ created, c.1 ≤ i ∧ i < c.2 := by
  have hinv := PersistentSegmentTree.run_inv hA hrun
  have hsz := hinv.1
  obtain ⟨old, a, new, r1, _, _, hold, hce, _, hret, hroot, _⟩ :=
    hinv.changeElement_root v i x hv0 hv1 hi0 (by omega)
  obtain ⟨new', p, elog, _, _, _, hall⟩ := hold.log_path i x hi0 (by omega)
  have hfst := Segment.ChangeElementLog_fst old i 0 arr.length x
  rw [elog, hce, Option.map_some', Option.some.injEq] at hfst
  simp only at hfst
  subst hfst
  refine ⟨_, _, old, new', _, hret, r1, hroot, by rw [hsz]; exact elog, ?_, ?_⟩
  · intro q hq
    rw [hsz] at hq
    exact hold.descend_off_path i x new' hi0 (by omega) hce q hq
  · intro c hc
    rw [List.mem_map] at hc
    obtain ⟨q, hq, rfl⟩ := hc
    exact hall q hq

/-- An instance of C15: the call `ChangeElement(1, 0, 6)` after `ChangeElement(0, 2, 5)` on the
tree constructed from `[4, 7, 1]`. -/
theorem structural_sharing_witness :
    ∃ t rets, PersistentSegmentTree.run [4, 7, 1] [⟨0, 2, 5⟩] = some (t, rets) ∧
      ∃ (t' : PersistentSegmentTree) (ret : Int) (old new : Segment)
        (created : List (Int × Int)),
        t.ChangeElement 1 0 6 = .returned t' ret ∧ t.root 1 = some old ∧
        t'.root ret = some new ∧ old.ChangeElementLog 0 0 t.size 6 = some (new, created) ∧
        (∀ p : List Bool, ¬ ((rangeAt 0 t.size p).1 ≤ 0 ∧ 0 < (rangeAt 0 t.size p).2) →
          new.descend p = old.descend p) ∧
        ∀ c ∈ created, c.1 ≤ 0 ∧ 0 < c.2 :=
  ⟨_, _, rfl, structural_sharing [4, 7, 1] [⟨0, 2, 5⟩] _ _ (by decide) rfl 1 0 6
    (by decide) (by decide) (by decide) (by decide)⟩

/-- C16: the shape invariant. In a state reached from a non-empty array the root of every
published version satisfies the shape invariant for `[0, size)`: a node of a range of length 1
has no children, a node of a longer range `[a, b)` has two children, for `[a, m)` and `[m, b)`
with `m = a + (b - a) / 2` and `a < m < b`. The shape depends only on the size: it is the shape
of every published version of every tree reached from an array of the same length, and a valid
call of `ChangeElement` returns a version of that shape. -/
theorem shape_invariant (arr : List Int) (us : List Update) (t : PersistentSegmentTree)
    (rets : List Int) (hA : arr ≠ []) (hrun : PersistentSegmentTree.run arr us = some (t, rets))
    (v : Int) (hv0 : 0 ≤ v) (hv1 : v < t.versions.length) :
    ∃ node : Segment, t.root v = some node ∧ node.wellShaped 0 t.size = true ∧
      (∀ (arr' : List Int) (us' : List Update) (s : PersistentSegmentTree) (rets' : List Int)
        (w : Int), arr'.length = arr.length →
        PersistentSegmentTree.run arr' us' = some (s, rets') → 0 ≤ w → w < s.versions.length →
        ∃ node' : Segment, s.root w = some node' ∧ node'.skeleton = node.skeleton) ∧
      ∀ i x : Int, 0 ≤ i → i < t.size →
        ∃ (t' : PersistentSegmentTree) (ret : Int) (node' : Segment),
          t.ChangeElement v i x = .returned t' ret ∧ t'.root ret = some node' ∧
            node'.wellShaped 0 t'.size = true ∧ node'.skeleton = node.skeleton := by
  have hinv := PersistentSegmentTree.run_inv hA hrun
  have hsz := hinv.1
  obtain ⟨node, a, e1, _, _, hn⟩ := hinv.root_holds v hv0 hv1
  refine ⟨node, e1, ?_, ?_, ?_⟩
  · rw [hsz]
    exact hn.wellShaped_eq
  · intro arr' us' s rets' w hlen hrun' hw0 hw1
    have hA' : arr' ≠ [] := by
      intro h0
      rw [h0] at hlen
      exact hA (List.length_eq_zero.mp hlen.symm)
    have hinv' := PersistentSegmentTree.run_inv hA' hrun'
    obtain ⟨node', a', e1', _, _, hn'⟩ := hinv'.root_holds w hw0 hw1
    rw [hlen] at hn'
    exact ⟨node', e1', hn'.skeleton_eq node hn⟩
  · intro i x hi0 hi1
    obtain ⟨old, a', new, r1, _, _, _, _, hnew, hce, hroot, _⟩ :=
      hinv.changeElement_root v i x hv0 hv1 hi0 (by omega)
    refine ⟨_, _, new, hce, hroot, ?_, hnew.skeleton_eq node hn⟩
    simp only [hsz]
    exact hnew.wellShaped_eq

/-- An instance of C16: version 1 of the tree constructed from `[4, 7, 1]` after
`ChangeElement(0, 2, 5)`. -/
theorem shape_invariant_witness :
    ∃ t rets, PersistentSegmentTree.run [4, 7, 1] [⟨0, 2, 5⟩] = some (t, rets) ∧
      ∃ node : Segment, t.root 1 = some node ∧ node.wellShaped 0 t.size = true ∧
        (∀ (arr' : List Int) (us' : List Update) (s : PersistentSegmentTree)
          (rets' : List Int) (w : Int), arr'.length = ([4, 7, 1] : List Int).length →
          PersistentSegmentTree.run arr' us' = some (s, rets') → 0 ≤ w →
          w < s.versions.length →
          ∃ node' : Segment, s.root w = some node' ∧ node'.skeleton = node.skeleton) ∧
        ∀ i x : Int, 0 ≤ i → i < t.size →
          ∃ (t' : PersistentSegmentTree) (ret : Int) (node' : Segment),
            t.ChangeElement 1 i x = .returned t' ret ∧ t'.root ret = some node' ∧
              node'.wellShaped 0 t'.size = true ∧ node'.skeleton = node.skeleton :=
  ⟨_, _, rfl, shape_invariant [4, 7, 1] [⟨0, 2, 5⟩] _ _ (by decide) rfl 1 (by decide) (by decide)⟩

/-- C17: logarithmic path length. In a state reached from a non-empty array of length `n` the
root of every published version has height `⌈log₂ n⌉`. A call `ChangeElement(v, i, x)` with
`0 ≤ i < size` allocates at most `⌈log₂ n⌉ + 1` nodes, namely the nodes at the positions along
the path `p` from the root to the node of range `[i, i+1)`, which in the new tree is the node
without children holding `x`. -/
theorem logarithmic_path (arr : List Int) (us : List Update) (t : PersistentSegmentTree)
    (rets : List Int) (hA : arr ≠ []) (hrun : PersistentSegmentTree.run arr us = some (t, rets))
    (v : Int) (hv0 : 0 ≤ v) (hv1 : v < t.versions.length) :
    ∃ old : Segment, t.root v = some old ∧ old.height = Nat.clog 2 arr.length ∧
      ∀ i x : Int, 0 ≤ i → i < t.size →
        ∃ (t' : PersistentSegmentTree) (ret : Int) (new : Segment)
          (created : List (Int × Int)) (p : List Bool),
          t.ChangeElement v i x = .returned t' ret ∧ t'.root ret = some new ∧
          old.ChangeElementLog i 0 t.size x = some (new, created) ∧
          created.length ≤ Nat.clog 2 arr.length + 1 ∧
          created = p.inits.map (fun q => rangeAt 0 t.size q) ∧
          rangeAt 0 t.size p = (i, i + 1) ∧ new.descend p = .mk x .null .null ∧
          new.height = Nat.clog 2 arr.length := by
  have hinv := PersistentSegmentTree.run_inv hA hrun
  have hsz := hinv.1
  obtain ⟨old, a, e1, _, _, hn⟩ := hinv.root_holds v hv0 hv1
  have hh : old.height = Nat.clog 2 arr.length := by
    rw [hn.height_eq]
    simp
  refine ⟨old, e1, hh, ?_⟩
  intro i x hi0 hi1
  obtain ⟨old', a', new, r1, _, _, _, hce, hnew, hret, hroot, _⟩ :=
    hinv.changeElement_root v i x hv0 hv1 hi0 (by omega)
  rw [e1, Option.some.injEq] at r1
  subst r1
  obtain ⟨new', p, elog, hrange, hlen, hdesc, _⟩ := hn.log_path i x hi0 (by omega)
  have hfst := Segment.ChangeElementLog_fst old i 0 arr.length x
  rw [elog, hce, Option.map_some', Option.some.injEq] at hfst
  simp only at hfst
  subst hfst
  refine ⟨_, _, new', _, p, hret, hroot, by rw [hsz]; exact elog, ?_, by rw [hsz],
    by rw [hsz]; exact hrange, hdesc, ?_⟩
  · rw [List.length_map, List.length_inits, ← hh]
    omega
  · rw [hnew.height_eq]
    simp

/-- An instance of C17: version 1 of the tree constructed from `[4, 7, 1]` after
`ChangeElement(0, 2, 5)`. -/
theorem logarithmic_path_witness :
    ∃ t rets, PersistentSegmentTree.run [4, 7, 1] [⟨0, 2, 5⟩] = some (t, rets) ∧
      ∃ old : Segment, t.root 1 = some old ∧
        old.height = Nat.clog 2 ([4, 7, 1] : List Int).length ∧
        ∀ i x : Int, 0 ≤ i → i < t.size →
          ∃ (t' : PersistentSegmentTree) (ret : Int) (new : Segment)
            (created : List (Int × Int)) (p : List Bool),
            t.ChangeElement 1 i x = .returned t' ret ∧ t'.root ret = some new ∧
            old.ChangeElementLog i 0 t.size x = some (new, created) ∧
            created.length ≤ Nat.clog 2 ([4, 7, 1] : List Int).length + 1 ∧
            created = p.inits.map (fun q => rangeAt 0 t.size q) ∧
            rangeAt 0 t.size p = (i, i + 1) ∧ new.descend p = .mk x .null .null ∧
            new.height = Nat.clog 2 ([4, 7, 1] : List Int).length :=
  ⟨_, _, rfl, logarithmic_path [4, 7, 1] [⟨0, 2, 5⟩] _ _ (by decide) rfl 1
    (by decide) (by decide)⟩

/-- C18 (as the code has it): the query is total and clamps its range, in the arithmetic of
`int`. In a state reached from a non-empty array with `int` inputs, for every published version
`v` and all integers `l` and `r`, the recursive query of the root is never called on a missing
child and returns the sum of the logical array of `v` over the indices `j` with
`max l 0 ≤ j < min r size` wrapped around into the range of `int`: it is that sum whenever the
sum lies in the range of `int`, and it is 0 whenever `l ≥ r`. The recursion follows the
pointers of a finite tree, so it terminates. -/
theorem segmentValue_total_clamped (arr : List Int) (us : List Update)
    (t : PersistentSegmentTree) (rets : List Int) (hA : arr ≠ [])
    (hrun : PersistentSegmentTree.run arr us = some (t, rets)) (hint : intInputs arr us)
    (v : Int) (hv0 : 0 ≤ v) (hv1 : v < t.versions.length) (l r : Int) :
    ∃ (node : Segment) (a : List Int), t.root v = some node ∧
      (logicalArrays arr us)[v.toNat]? = some a ∧
      node.reachesNull l r 0 t.size = false ∧
      t.SegmentValue v l r = some (wrap (rangeSum a (max l 0) (min r t.size))) ∧
      (isInt (rangeSum a (max l 0) (min r t.size)) →
        t.SegmentValue v l r = some (rangeSum a (max l 0) (min r t.size))) ∧
      (r ≤ l → t.SegmentValue v l r = some 0) := by
  have hinv := PersistentSegmentTree.run_inv hA hrun
  have hsz := hinv.1
  obtain ⟨node, a, e1, e2, _, hn⟩ := hinv.root_holds v hv0 hv1
  obtain ⟨a', e2', _, e3⟩ := hinv.segmentValue_clamped v hv0 hv1 l r
  rw [e2, Option.some.injEq] at e2'
  subst e2'
  have hq : Segment.queryResult (elemAt a) l r 0 arr.length
      = wrap (rangeSum a (max l 0) (min r t.size)) := by
    rw [Segment.queryResult_of_isInt _ _ _ _ _ (logicalArrays_elemAt_isInt hint e2), hsz]
    rfl
  refine ⟨node, a, e1, e2, ?_, by rw [e3, hq], ?_, ?_⟩
  · rw [hsz]
    exact hn.reachesNull_eq l r
  · intro hfit
    rw [e3, hq, wrap_of_isInt _ hfit]
  · intro hrl
    rw [e3, Segment.queryResult_empty _ l r 0 _ hrl (by have := hinv.2.1; omega)]

/-- An instance of the amended C18: the query of version 1 over `l = -4`, `r = 2` on a tree of
size 3. -/
theorem segmentValue_total_clamped_witness :
    intInputs [4, 7, 1] [⟨0, 2, 5⟩] ∧
    ∃ t rets, PersistentSegmentTree.run [4, 7, 1] [⟨0, 2, 5⟩] = some (t, rets) ∧
      ∃ (node : Segment) (a : List Int), t.root 1 = some node ∧
        (logicalArrays [4, 7, 1] [⟨0, 2, 5⟩])[(1 : Int).toNat]? = some a ∧
        node.reachesNull (-4) 2 0 t.size = false ∧
        t.SegmentValue 1 (-4) 2 = some (wrap (rangeSum a (max (-4) 0) (min 2 t.size))) ∧
        (isInt (rangeSum a (max (-4) 0) (min 2 t.size)) →
          t.SegmentValue 1 (-4) 2 = some (rangeSum a (max (-4) 0) (min 2 t.size))) ∧
        ((2 : Int) ≤ -4 → t.SegmentValue 1 (-4) 2 = some 0) :=
  ⟨by decide, _, _, rfl,
    segmentValue_total_clamped [4, 7, 1] [⟨0, 2, 5⟩] _ _ (by decide) rfl (by decide) 1
      (by decide) (by decide) (-4) 2⟩

/-- C18 fails as stated: on the tree constructed from `[2147483647, 1]` the query of version 0
over `l = -5`, `r = 9` returns -2147483648, while the sum of the array over the indices `j`
with `max (-5) 0 ≤ j < min 9 2` is 2147483648. -/
theorem segmentValue_total_clamped_counterexample :
    (PersistentSegmentTree.run [2147483647, 1] []).map (fun s => s.1.SegmentValue 0 (-5) 9)
      = some (some (-2147483648)) ∧
    rangeSum [2147483647, 1] (max (-5) 0) (min 9 2) = 2147483648 := by
  decide

/-- C19: versions are canonical. In a state reached from a non-empty array, a call
`ChangeElement(v, i, x)` with `v` published and `0 ≤ i < size` appends exactly the tree that
the array constructor builds from the logical array of `v` with position `i` replaced by `x`.
So an update with the value already stored yields the tree of the source version, and two
updates at different indices yield the same tree in either order. -/
theorem versions_canonical (arr : List Int) (us : List Update) (t : PersistentSegmentTree)
    (rets : List Int) (hA : arr ≠ []) (hrun : PersistentSegmentTree.run arr us = some (t, rets))
    (v i x : Int) (hv0 : 0 ≤ v) (hv1 : v < t.versions.length) (hi0 : 0 ≤ i) (hi1 : i < t.size) :
    ∃ (t1 : PersistentSegmentTree) (k : Int) (old new : Segment) (a : List Int),
      t.ChangeElement v i x = .returned t1 k ∧ t.root v = some old ∧ t1.root k = some new ∧
      (logicalArrays arr us)[v.toNat]? = some a ∧
      PersistentSegmentTree.ofArr (a.set i.toNat x) = .ok ⟨[new], t.size⟩ ∧
      (x = elemAt a i → new = old) ∧
      ∀ j y : Int, 0 ≤ j → j < t.size → j ≠ i →
        ∃ (t2 : PersistentSegmentTree) (k2 : Int) (s1 : PersistentSegmentTree) (m : Int)
          (s2 : PersistentSegmentTree) (m2 : Int) (n : Segment),
          t1.ChangeElement k j y = .returned t2 k2 ∧
          t.ChangeElement v j y = .returned s1 m ∧ s1.ChangeElement m i x = .returned s2 m2 ∧
          t2.root k2 = some n ∧ s2.root m2 = some n := by
  have hinv := PersistentSegmentTree.run_inv hA hrun
  have hsz := hinv.1
  have hi1' : i < (arr.length : Int) := by omega
  obtain ⟨old, a, new, r1, r2, r3, hold, hce, hnew, hret, hroot, hinv1⟩ :=
    hinv.changeElement_root v i x hv0 hv1 hi0 hi1'
  refine ⟨_, _, old, new, a, hret, r1, hroot, r2, ?_, ?_, ?_⟩
  · have hne : a.set i.toNat x ≠ [] := by
      intro h0
      have := congrArg List.length h0
      simp only [List.length_set, List.length_nil] at this
      have hpos := hinv.2.1
      omega
    obtain ⟨node, e, hi⟩ := PersistentSegmentTree.ofArr_inv (a.set i.toNat x) hne
    have hlen : (a.set i.toNat x).length = arr.length := by rw [List.length_set, r3]
    obtain ⟨_, hnode⟩ := hi.2.2.2 0 node (a.set i.toNat x) rfl rfl
    rw [hlen] at hnode e
    rw [e, hsz, hnode.unique new hnew]
  · intro hx
    have hsame : elemAt (a.set i.toNat x) = elemAt a := by
      rw [elemAt_set a i x hi0 (by omega), hx, Function.update_eq_self]
    rw [hsame] at hnew
    exact hnew.unique old hold
  · intro j y hj0 hj1 hne
    have hj1' : j < (arr.length : Int) := by omega
    obtain ⟨old2, a2, new2, q1, _, _, _, qce, _, qret, qroot, _⟩ :=
      hinv1.changeElement_root t.versions.length j y (by omega) (by simp) hj0 hj1'
    rw [hroot, Option.some.injEq] at q1
    subst q1
    obtain ⟨old3, a3, new3, p1, p2, p3, _, pce, pnew, pret, proot, pinv⟩ :=
      hinv.changeElement_root v j y hv0 hv1 hj0 hj1'
    rw [r2, Option.some.injEq] at p2
    subst p2
    obtain ⟨old4, a4, new4, s1, _, _, _, sce, _, sret, sroot, _⟩ :=
      pinv.changeElement_root t.versions.length i x (by omega) (by simp) hi0 hi1'
    rw [proot, Option.some.injEq] at s1
    subst s1
    obtain ⟨n1, c1, h1⟩ := hnew.ChangeElement_eq j y hj0 hj1'
    obtain ⟨n2, c2, h2⟩ := pnew.ChangeElement_eq i x hi0 hi1'
    rw [qce, Option.some.injEq] at c1
    rw [sce, Option.some.injEq] at c2
    subst c1 c2
    rw [elemAt_set a i x hi0 (by omega)] at h1
    rw [elemAt_set a j y hj0 (by omega), Function.update_comm hne] at h2
    have heq : new4 = new2 := h2.unique new2 h1
    subst heq
    exact ⟨_, _, _, _, _, _, new4, qret, pret, sret, qroot, sroot⟩

/-- An instance of C19: the call `ChangeElement(1, 0, 6)` after `ChangeElement(0, 2, 5)` on the
tree constructed from `[4, 7, 1]`. -/
theorem versions_canonical_witness :
    ∃ t rets, PersistentSegmentTree.run [4, 7, 1] [⟨0, 2, 5⟩] = some (t, rets) ∧
      ∃ (t1 : PersistentSegmentTree) (k : Int) (old new : Segment) (a : List Int),
        t.ChangeElement 1 0 6 = .returned t1 k ∧ t.root 1 = some old ∧ t1.root k = some new ∧
        (logicalArrays [4, 7, 1] [⟨0, 2, 5⟩])[(1 : Int).toNat]? = some a ∧
        PersistentSegmentTree.ofArr (a.set (0 : Int).toNat 6) = .ok ⟨[new], t.size⟩ ∧
        ((6 : Int) = elemAt a 0 → new = old) ∧
        ∀ j y : Int, 0 ≤ j → j < t.size → j ≠ 0 →
          ∃ (t2 : PersistentSegmentTree) (k2 : Int) (s1 : PersistentSegmentTree) (m : Int)
            (s2 : PersistentSegmentTree) (m2 : Int) (n : Segment),
            t1.ChangeElement k j y = .returned t2 k2 ∧
            t.ChangeElement 1 j y = .returned s1 m ∧ s1.ChangeElement m 0 6 = .returned s2 m2 ∧
            t2.root k2 = some n ∧ s2.root m2 = some n :=
  ⟨_, _, rfl, versions_canonical [4, 7, 1] [⟨0, 2, 5⟩] _ _ (by decide) rfl 1 0 6
    (by decide) (by decide) (by decide) (by decide)⟩
